import Mathlib

/-! hson-server: the path-addressable document tree.

A shallow embedding of `internal/datatree` (path resolution, element location,
Lookup / Set / Delete / BulkDelete / Patch), of the parts of
`internal/router` that build on it (create, query parsing, the query
pipeline, error reporting) and of the delete operation of `internal/app`.

Modelling conventions

* A Go `any` holding decoded JSON is a `Node`.  Maps are association lists
  (first entry of a key is the binding, assignment replaces the binding in
  place or adds one at the end, `delete` drops every entry of the key).
* A `float64` is a finite value `mant * 2 ^ exp`; the negative zero and the
  non-finite values, which no JSON document decodes to, are not represented.
* Go maps and slices are references.  The document is a tree, so a reference
  to a container is modelled by the location (`Loc`) of that container below
  the root, and a write through the reference is `putAt` at that location.
  Every mutating function returns its Go result (`error`, here `Option Err`)
  together with the document the caller sees after the call.
-/

namespace datatree

/-! ## Values -/

/-- A finite `float64`: the number `mant * 2 ^ exp`. -/
structure F64 where
  mant : Int
  exp : Int
deriving DecidableEq, Repr

/-- The Go conversion `int(f)`: truncation toward zero.  A value outside the
64-bit range converts to the smallest integer, as it does on amd64. -/
def F64.toInt (f : F64) : Int :=
  let t : Int :=
    if 0 ≤ f.exp then f.mant * 2 ^ f.exp.toNat else Int.tdiv f.mant (2 ^ (-f.exp).toNat)
  if -(2 ^ 63) ≤ t ∧ t < 2 ^ 63 then t else -(2 ^ 63)

/-- A decoded JSON value (`any`): `nil`, `bool`, `float64`, `string`,
`[]any`, `map[string]any`. -/
inductive Node where
  | null
  | bool (b : Bool)
  | num (x : F64)
  | str (s : String)
  | arr (xs : List Node)
  | obj (kvs : List (String × Node))

/-- The `error` values the package returns, one constructor per place where
the source builds one; the arguments are the values formatted into the
message. -/
inductive Err where
  | ErrNotFound
  | pathNotFound (pre : String)
  | invalidIdIndex (segment pre : String)
  | cannotDescend (pre : String)
  | cannotTraverse (last : String)
  | cannotSet (urlPath : String)
  | cannotDelete (urlPath : String)
  | notSlice (urlPath : String)
  | patchNonObject (urlPath : String)
  | patchNonCollection (urlPath : String)
  | noElement (key : String)
  | notObject (key : String)
deriving DecidableEq, Repr

/-! ## Maps -/

/-- The map read `m[k]` with its `ok` flag. -/
def mapGet (k : String) : List (String × Node) → Option Node
  | [] => none
  | e :: m => if e.1 = k then some e.2 else mapGet k m

/-- The map assignment `m[k] = v`. -/
def mapSet (k : String) (v : Node) : List (String × Node) → List (String × Node)
  | [] => [(k, v)]
  | e :: m => if e.1 = k then (e.1, v) :: m else e :: mapSet k v m

/-- The builtin `delete(m, k)`. -/
def mapDelete (k : String) (m : List (String × Node)) : List (String × Node) :=
  m.filter (fun e => decide (e.1 ≠ k))

/-- Replace the value bound to `k` by its image under `f` (a write through a
reference held in the map). -/
def mapAdjust (k : String) (f : Node → Node) : List (String × Node) → List (String × Node)
  | [] => []
  | e :: m => if e.1 = k then (e.1, f e.2) :: m else e :: mapAdjust k f m

/-- The standard `maps.Copy(dst, src)`: every binding of `src` is assigned
into `dst`. -/
def mapsCopy (dst src : List (String × Node)) : List (String × Node) :=
  src.foldl (fun d e => mapSet e.1 e.2 d) dst

/-! ## Locations -/

/-- One step below a container: a map key or a slice index. -/
inductive Step where
  | key (k : String)
  | idx (i : Nat)
deriving DecidableEq, Repr

/-- The location of a value below the root. -/
abbrev Loc := List Step

/-- The value stored at a location. -/
def getAt : Loc → Node → Option Node
  | [], n => some n
  | Step.key k :: l, Node.obj m => (mapGet k m).bind (getAt l)
  | Step.idx i :: l, Node.arr xs => (xs.get? i).bind (getAt l)
  | _ :: _, _ => none

/-- The document after the value at a location is overwritten. -/
def putAt : Loc → Node → Node → Node
  | [], new, _ => new
  | Step.key k :: l, new, Node.obj m => Node.obj (mapAdjust k (putAt l new) m)
  | Step.idx i :: l, new, Node.arr xs => Node.arr (xs.modify (putAt l new) i)
  | _ :: _, _, n => n

/-! ## Strings -/

/-- The standard `unicode.IsSpace`. -/
def isSpace (c : Char) : Bool :=
  let n := c.toNat
  (9 ≤ n && n ≤ 13) || n = 32 || n = 0x85 || n = 0xA0 || n = 0x1680 ||
  (0x2000 ≤ n && n ≤ 0x200A) || n = 0x2028 || n = 0x2029 || n = 0x202F ||
  n = 0x205F || n = 0x3000

/-- The standard `strings.TrimSpace`. -/
def TrimSpace (s : String) : String :=
  ⟨((s.data.dropWhile isSpace).reverse.dropWhile isSpace).reverse⟩

/-- The standard `strconv.Itoa`. -/
def Itoa (i : Int) : String :=
  if i < 0 then "-" ++ Nat.repr i.natAbs else Nat.repr i.natAbs

/-- The value of a run of decimal digits. -/
def digitsValue (ds : List Char) : Nat :=
  ds.foldl (fun acc d => 10 * acc + (d.toNat - 48)) 0

/-- The standard `strconv.Atoi`: an optional sign and one or more decimal
digits, the value within the 64-bit range; `none` stands for an error. -/
def Atoi (s : String) : Option Int :=
  let body : List Char :=
    match s.data with
    | [] => []
    | c :: rest => if c = Char.ofNat 45 ∨ c = Char.ofNat 43 then rest else c :: rest
  let neg : Bool := s.data.head? = some (Char.ofNat 45)
  if body = [] ∨ ¬ body.all Char.isDigit = true then none
  else
    let v : Int := if neg then -(digitsValue body : Int) else (digitsValue body : Int)
    if -(2 ^ 63) ≤ v ∧ v < 2 ^ 63 then some v else none

/-- The comparison `a < b` of two strings, character by character. -/
def strLess : List Char → List Char → Bool
  | _, [] => false
  | [], _ :: _ => true
  | a :: as, b :: bs =>
    if a.toNat < b.toNat then true
    else if b.toNat < a.toNat then false
    else strLess as bs

/-- The comparison `a < b` of two strings. -/
def stringLt (a b : String) : Bool :=
  strLess a.data b.data

/-- The pieces of `strings.Split(s, "/")`. -/
def splitSlash : List Char → List (List Char)
  | [] => [[]]
  | c :: cs =>
    if c = Char.ofNat 47 then [] :: splitSlash cs
    else
      match splitSlash cs with
      | [] => [[c]]
      | p :: ps => (c :: p) :: ps

/-- The characters of `strings.Join(parts, "/")`. -/
def joinSlash : List (List Char) → List Char
  | [] => []
  | [p] => p
  | p :: q :: ps => p ++ Char.ofNat 47 :: joinSlash (q :: ps)

/-- The standard `strings.Join(parts, "/")`. -/
def Join (parts : List String) : String :=
  ⟨joinSlash (parts.map String.data)⟩

/-- The standard `strings.Trim(s, "/")`. -/
def trimSlash (s : List Char) : List Char :=
  ((s.dropWhile (fun c => c = Char.ofNat 47)).reverse.dropWhile
    (fun c => c = Char.ofNat 47)).reverse

/-- One element of a path as `path.Clean` treats it: empty and `.` elements
vanish, `..` removes the element before it (at the root it vanishes, in a
relative path a leading `..` stays).  The elements kept so far are held last
first. -/
def cleanStep (rooted : Bool) (kept : List (List Char)) (comp : List Char) :
    List (List Char) :=
  if comp = [] ∨ comp = [Char.ofNat 46] then kept
  else if comp = [Char.ofNat 46, Char.ofNat 46] then
    match kept with
    | [] => if rooted then [] else [comp]
    | top :: rest => if top = [Char.ofNat 46, Char.ofNat 46] then comp :: kept else rest
  else comp :: kept

/-- The elements `path.Clean` keeps, in order. -/
def cleanElems (rooted : Bool) (p : List Char) : List (List Char) :=
  ((splitSlash p).foldl (cleanStep rooted) []).reverse

/-- The standard `path.Clean`: the shortest path equivalent to `p`. -/
def pathClean (p : List Char) : List Char :=
  match p with
  | [] => [Char.ofNat 46]
  | c :: _ =>
    if c = Char.ofNat 47 then Char.ofNat 47 :: joinSlash (cleanElems true p)
    else if cleanElems false p = [] then [Char.ofNat 46]
    else joinSlash (cleanElems false p)

/-- The segments of a URL path: `/api/items/0` gives `[api, items, 0]`. -/
def splitPath (urlPath : String) : List String :=
  let clean := pathClean (Char.ofNat 47 :: urlPath.data)
  let trimmed := trimSlash clean
  if trimmed = [] then []
  else (splitSlash trimmed).map String.mk

/-! ## Element Locator and Path Resolver -/

/-- The identity scan of `findByKey`: the first element that is an object
whose `id` is the string `key`, or a number whose integer part prints as
`key`.  The counter is the index of the head of the list. -/
def findById (key : String) : List Node → Nat → Option (Node × Nat)
  | [], _ => none
  | Node.obj m :: rest, i =>
    match mapGet "id" m with
    | some (Node.str s) => if s = key then some (Node.obj m, i) else findById key rest (i + 1)
    | some (Node.num f) =>
      if Itoa f.toInt = key then some (Node.obj m, i) else findById key rest (i + 1)
    | _ => findById key rest (i + 1)
  | _ :: rest, i => findById key rest (i + 1)

/-- The element of a slice that a path segment names, with its index: by
`id` first, by position otherwise. -/
def findByKey (slice : List Node) (key : String) : Except Err (Node × Nat) :=
  let key := TrimSpace key
  match findById key slice 0 with
  | some r => Except.ok r
  | none =>
    match Atoi key with
    | some idx =>
      if 0 ≤ idx ∧ idx < slice.length then
        match slice.get? idx.toNat with
        | some el => Except.ok (el, idx.toNat)
        | none => Except.error (Err.noElement key)
      else Except.error (Err.noElement key)
    | none => Except.error (Err.noElement key)

/-- The object at `key` by id or index, with its index. -/
def findElem (slice : List Node) (key : String) :
    Except Err (List (String × Node) × Nat) :=
  match findByKey slice key with
  | Except.error e => Except.error e
  | Except.ok (el, idx) =>
    match el with
    | Node.obj m => Except.ok (m, idx)
    | _ => Except.error (Err.notObject key)

/-- The index of the element at `key` by id or index. -/
def findIndex (slice : List Node) (key : String) : Except Err Nat :=
  match findByKey slice key with
  | Except.error e => Except.error e
  | Except.ok (_, idx) => Except.ok idx

/-- The loop of `traverse`: walk the segments from `curr`; `seen` holds the
segments already walked (for the prefix an error names).  The result is the
value reached and its location below `curr`. -/
def descend : Node → List String → List String → Except Err (Node × Loc)
  | curr, [], _ => Except.ok (curr, [])
  | Node.obj current, segment :: rest, seen =>
    match mapGet segment current with
    | none => Except.error (Err.pathNotFound (Join (seen ++ [segment])))
    | some nxt =>
      match descend nxt rest (seen ++ [segment]) with
      | Except.error e => Except.error e
      | Except.ok (n, l) => Except.ok (n, Step.key segment :: l)
  | Node.arr current, segment :: rest, seen =>
    match findByKey current segment with
    | Except.error _ => Except.error (Err.invalidIdIndex segment (Join (seen ++ [segment])))
    | Except.ok (element, i) =>
      match descend element rest (seen ++ [segment]) with
      | Except.error e => Except.error e
      | Except.ok (n, l) => Except.ok (n, Step.idx i :: l)
  | _, segment :: _, seen => Except.error (Err.cannotDescend (Join (seen ++ [segment])))

/-- The parent container of the addressed value (with its location) and the
last segment. -/
def traverse (root : Node) (parts : List String) : Except Err (Node × String × Loc) :=
  match parts.getLast? with
  | none => Except.error Err.ErrNotFound
  | some last =>
    match descend root parts.dropLast [] with
    | Except.error e => Except.error e
    | Except.ok (curr, loc) => Except.ok (curr, last, loc)

/-! ## Mutation Engine -/

/-- The value at a URL path together with the location it is stored at (the
caller of `Lookup` receives a reference when the value is a map or a
slice). -/
def LookupRef (appData : Node) (urlPath : String) : Except Err (Node × Loc) :=
  let urlParts := splitPath urlPath
  if urlParts.length = 0 then Except.ok (appData, [])
  else
    match traverse appData urlParts with
    | Except.error e => Except.error e
    | Except.ok (parentContainer, lastSegment, loc) =>
      match parentContainer with
      | Node.obj parent =>
        match mapGet lastSegment parent with
        | none => Except.error Err.ErrNotFound
        | some result => Except.ok (result, loc ++ [Step.key lastSegment])
      | Node.arr parent =>
        match findByKey parent lastSegment with
        | Except.error _ => Except.error Err.ErrNotFound
        | Except.ok (result, i) => Except.ok (result, loc ++ [Step.idx i])
      | _ => Except.error (Err.cannotTraverse lastSegment)

/-- The value at a URL path. -/
def Lookup (appData : Node) (urlPath : String) : Except Err Node :=
  match LookupRef appData urlPath with
  | Except.error e => Except.error e
  | Except.ok (result, _) => Except.ok result

/-- Assign `newVal` at a URL path.  Returns the error and the document after
the call. -/
def Set (root : Node) (urlPath : String) (newVal : Node) : Option Err × Node :=
  let urlParts := splitPath urlPath
  match traverse root urlParts with
  | Except.error e => (some e, root)
  | Except.ok (parentContainer, lastSegment, loc) =>
    match parentContainer with
    | Node.obj parent => (none, putAt loc (Node.obj (mapSet lastSegment newVal parent)) root)
    | Node.arr parent =>
      match findIndex parent lastSegment with
      | Except.error e => (some e, root)
      | Except.ok index => (none, putAt loc (Node.arr (parent.set index newVal)) root)
    | _ => (some (Err.cannotSet urlPath), root)

/-- Delete the value at a URL path.  Under a slice the elements behind the
index are first moved one place down inside the slice's own storage (the
`append` onto `parentContainer[:index]`), which the document sees at once;
the shorter slice is then written back with `Set`. -/
def Delete (root : Node) (urlPath : String) : Option Err × Node :=
  let urlParts := splitPath urlPath
  if urlParts.length = 0 then (some Err.ErrNotFound, root)
  else
    match traverse root urlParts with
    | Except.error e => (some e, root)
    | Except.ok (parent, lastSegment, loc) =>
      let parentPath := Join urlParts.dropLast
      match parent with
      | Node.obj parentContainer =>
        match mapGet lastSegment parentContainer with
        | some (Node.arr _) =>
          (none, putAt loc (Node.obj (mapSet lastSegment (Node.arr []) parentContainer)) root)
        | _ => (none, putAt loc (Node.obj (mapDelete lastSegment parentContainer)) root)
      | Node.arr parentContainer =>
        match findByKey parentContainer lastSegment with
        | Except.error e => (some e, root)
        | Except.ok (_, index) =>
          let newSlice := parentContainer.take index ++ parentContainer.drop (index + 1)
          let shifted := newSlice ++ parentContainer.drop (parentContainer.length - 1)
          Set (putAt loc (Node.arr shifted) root) parentPath (Node.arr newSlice)
      | _ => (some (Err.cannotDelete urlPath), root)

/-- The order `fmt` prints the keys of a map in: insertion into a list
already in key order. -/
def sortedInsert (e : String × String) : List (String × String) → List (String × String)
  | [] => [e]
  | x :: xs => if stringLt e.1 x.1 then e :: x :: xs else x :: sortedInsert e xs

/-- Texts separated by single spaces. -/
def spaced : List String → String
  | [] => ""
  | [x] => x
  | x :: y :: ys => x ++ " " ++ spaced (y :: ys)

mutual
/-- The standard `fmt.Sprint` of one value.  The text of a `float64` (the
shortest decimal that reads back as the same number) is the parameter
`fmtFloat`. -/
def Sprint (fmtFloat : F64 → String) : Node → String
  | Node.null => "<nil>"
  | Node.bool b => if b then "true" else "false"
  | Node.num x => fmtFloat x
  | Node.str s => s
  | Node.arr xs => "[" ++ spaced (SprintList fmtFloat xs) ++ "]"
  | Node.obj kvs =>
    "map[" ++ spaced (((SprintEntries fmtFloat kvs).foldr sortedInsert []).map
      (fun e => e.1 ++ ":" ++ e.2)) ++ "]"
/-- The texts of the elements of a slice. -/
def SprintList (fmtFloat : F64 → String) : List Node → List String
  | [] => []
  | x :: xs => Sprint fmtFloat x :: SprintList fmtFloat xs
/-- The keys of a map, each with the text of its value. -/
def SprintEntries (fmtFloat : F64 → String) : List (String × Node) → List (String × String)
  | [] => []
  | e :: es => (e.1, Sprint fmtFloat e.2) :: SprintEntries fmtFloat es
end

/-- Whether every filter matches the element (such an element is dropped by
`BulkDelete`). -/
def matchesFilters (fmtFloat : F64 → String) (elem : Node) (filters : List (String × String)) :
    Bool :=
  filters.all (fun f =>
    match elem with
    | Node.obj obj =>
      match mapGet f.1 obj with
      | none => false
      | some val => decide (Sprint fmtFloat val = f.2)
    | _ => decide (f.1 = "value") && decide (Sprint fmtFloat elem = f.2))

/-- Delete every element of the slice at a URL path that matches all the
filters; without filters, a plain `Delete`. -/
def BulkDelete (fmtFloat : F64 → String) (root : Node) (urlPath : String)
    (filters : List (String × String)) : Option Err × Node :=
  if filters.length = 0 then Delete root urlPath
  else
    match Lookup root urlPath with
    | Except.error e => (some e, root)
    | Except.ok raw =>
      match raw with
      | Node.arr slice =>
        let kept := slice.filter (fun elem => !matchesFilters fmtFloat elem filters)
        Set root urlPath (Node.arr kept)
      | _ => (some (Err.notSlice urlPath), root)

/-- Shallow-merge `patch` into the object at a URL path. -/
def Patch (root : Node) (urlPath : String) (patch : List (String × Node)) :
    Option Err × Node :=
  let parts := splitPath urlPath
  match traverse root parts with
  | Except.error e => (some e, root)
  | Except.ok (parent, lastSegment, loc) =>
    match parent with
    | Node.obj parentContainer =>
      match mapGet lastSegment parentContainer with
      | none => (some Err.ErrNotFound, root)
      | some data =>
        match data with
        | Node.obj targetObject =>
          (none, putAt (loc ++ [Step.key lastSegment])
            (Node.obj (mapsCopy targetObject patch)) root)
        | _ => (some (Err.patchNonObject urlPath), root)
    | Node.arr parentContainer =>
      match findElem parentContainer lastSegment with
      | Except.error e => (some e, root)
      | Except.ok (obj, i) =>
        (none, putAt (loc ++ [Step.idx i]) (Node.obj (mapsCopy obj patch)) root)
    | _ => (some (Err.patchNonCollection urlPath), root)

/-! ## Identity of an element, as the Element Locator reads it -/

/-- The text an `id` value is compared by: a string as it is, a number by
the decimal form of its integer part; any other value has none. -/
def idText : Node → Option String
  | Node.str s => some s
  | Node.num f => some (Itoa f.toInt)
  | _ => none

/-- The identity of a slice element: the text of the `id` of an object. -/
def idKey : Node → Option String
  | Node.obj m => (mapGet "id" m).bind idText
  | _ => none

/-- The index of the first element whose identity is `key`, counted from
`i`. -/
def idIndex (key : String) : List Node → Nat → Option Nat
  | [], _ => none
  | el :: rest, i => if idKey el = some key then some i else idIndex key rest (i + 1)

/-- The index the Element Locator resolves a trimmed key to: the first
element of that identity, otherwise the position the key spells. -/
def locateIndex (slice : List Node) (key : String) : Option Nat :=
  match idIndex key slice 0 with
  | some i => some i
  | none =>
    match Atoi key with
    | some idx => if 0 ≤ idx ∧ idx < slice.length then some idx.toNat else none
    | none => none

/-- Two values the Element Locator cannot tell apart: the same identity as
a slice element and the same text as an `id` value. -/
def Similar (a b : Node) : Prop :=
  idKey a = idKey b ∧ idText a = idText b

/-- A path segment as `splitPath` produces them: not empty, not `.` or `..`,
without a slash. -/
def CleanSeg (s : List Char) : Prop :=
  s ≠ [] ∧ s ≠ [Char.ofNat 46] ∧ s ≠ [Char.ofNat 46, Char.ofNat 46] ∧ Char.ofNat 47 ∉ s

/-- An element matches a key by identity: it is an object whose `id` is
the string `key`, or a number whose integer part, in decimal, is `key`. -/
def IdMatches (el : Node) (key : String) : Prop :=
  ∃ m, el = Node.obj m ∧
    (mapGet "id" m = some (Node.str key) ∨
      ∃ f, mapGet "id" m = some (Node.num f) ∧ Itoa f.toInt = key)

/-- The write `Set root urlPath newVal` does not change an identity that
the path is resolved by.  Under an object: that object is not itself an
element of a slice, or its identity is the same with the new value in place
(as it is whenever the last segment is not `id`).  Under a slice: the last
segment is a position (no element has it as identity), or `newVal` itself
has the segment as identity. -/
def StableWrite (root : Node) (urlPath : String) (newVal : Node) : Prop :=
  match traverse root (splitPath urlPath) with
  | Except.ok (Node.obj parent, last, loc) =>
    (∀ l i, loc ≠ l ++ [Step.idx i]) ∨
      idKey (Node.obj (mapSet last newVal parent)) = idKey (Node.obj parent)
  | Except.ok (Node.arr parent, last, _) =>
    idIndex (TrimSpace last) parent 0 = none ∨ idKey newVal = some (TrimSpace last)
  | _ => True

/-- Whether `BulkDelete` is to keep an element, in the words of its
contract: an object is kept when some filter names a key it lacks or a value
whose text differs; any other element is kept unless every filter is named
`value` and carries the text of the element. -/
def retains (fmtFloat : F64 → String) (filters : List (String × String)) (e : Node) : Bool :=
  match e with
  | Node.obj m =>
    filters.any (fun f =>
      match mapGet f.1 m with
      | none => true
      | some val => decide (Sprint fmtFloat val ≠ f.2))
  | _ => filters.any (fun f => decide (f.1 ≠ "value") || decide (Sprint fmtFloat e ≠ f.2))

/-- The text `fmt` prints for a `float64` that holds an integer below
`10 ^ 21`: its decimal digits. -/
def fmtInt (f : F64) : String :=
  Itoa f.toInt

/-- The number `i` as a `float64`. -/
def int (i : Int) : Node :=
  Node.num ⟨i, 0⟩

/-- The document `{"items":[{"id":1,"name":"a"},{"id":2,"name":"b"}]}`. -/
def itemsDoc : Node :=
  Node.obj [("items", Node.arr [
    Node.obj [("id", int 1), ("name", Node.str "a")],
    Node.obj [("id", int 2), ("name", Node.str "b")]])]

end datatree

/-! ## The transport's use of the store -/

namespace router

open datatree

/-- The options of a query. -/
structure QueryOptions where
  Filters : List (String × String)
  SortKey : String
  Desc : Bool
  Offset : Int
  Limit : Int

/-- A 64-bit `int` result: the value modulo `2 ^ 64`, in the signed range. -/
def wrap64 (x : Int) : Int :=
  (x + 2 ^ 63) % 2 ^ 64 - 2 ^ 63

/-- The comparison `a < b` of two `float64`. -/
def f64Lt (a b : F64) : Bool :=
  let e := min a.exp b.exp
  decide (a.mant * 2 ^ (a.exp - e).toNat < b.mant * 2 ^ (b.exp - e).toNat)

/-- The comparison `a == b` of two `float64`. -/
def f64Eq (a b : F64) : Bool :=
  let e := min a.exp b.exp
  decide (a.mant * 2 ^ (a.exp - e).toNat = b.mant * 2 ^ (b.exp - e).toNat)

/-- Whether an item passes all the filters of a query.  `parseFloat` is the
standard `strconv.ParseFloat(s, 64)`, `none` when it reports an error or a
value that is not finite. -/
def filterMatch (fmtFloat : F64 → String) (parseFloat : String → Option F64)
    (filters : List (String × String)) (item : Node) : Bool :=
  match item with
  | Node.obj obj =>
    filters.all (fun f =>
      match mapGet f.1 obj with
      | none => false
      | some (Node.num v) =>
        match parseFloat f.2 with
        | none => false
        | some w => f64Eq v w
      | some v => decide (Sprint fmtFloat v = f.2))
  | _ =>
    match filters.lookup "value" with
    | some want => decide (Sprint fmtFloat item = want)
    | none => false

/-- Keep the items that match every filter; the result is a new slice. -/
def filterArray (fmtFloat : F64 → String) (parseFloat : String → Option F64)
    (arr : List Node) (filters : List (String × String)) : List Node :=
  arr.filter (filterMatch fmtFloat parseFloat filters)

/-- The `less` function `sortArray` hands to the sort, on two elements. -/
def sortLess (key : String) (desc : Bool) (a b : Node) : Bool :=
  match a, b with
  | Node.obj ai, Node.obj bi =>
    match mapGet key ai, mapGet key bi with
    | some aVal, some bVal =>
      match aVal with
      | Node.num av =>
        match bVal with
        | Node.num bv => if desc then f64Lt bv av else f64Lt av bv
        | _ => !desc
      | Node.str av =>
        match bVal with
        | Node.str bv => if desc then stringLt bv av else stringLt av bv
        | _ => desc
      | _ => false
    | _, _ => false
  | _, _ => false

/-- The inner loop of the insertion sort: the new element moves down past
every element it is less than.  The sorted part is held last first. -/
def sink (less : Node → Node → Bool) (x : Node) : List Node → List Node
  | [] => [x]
  | p :: ps => if less x p then p :: sink less x ps else x :: p :: ps

/-- The standard `sort.SliceStable`, as the stable insertion sort it runs on
a slice of up to twenty elements (longer slices are sorted in blocks of
twenty that are then merged, also stably). -/
def sliceStable (less : Node → Node → Bool) (data : List Node) : List Node :=
  (data.foldl (fun sorted x => sink less x sorted) []).reverse

/-- Sort a slice in place by `key`; the result is the content of the slice
after the call. -/
def sortArray (arr : List Node) (key : String) (desc : Bool) : List Node :=
  sliceStable (sortLess key desc) arr

/-- The window `arr[offset:end]` of a slice; `none` is the run-time panic of
a slice expression whose bounds are out of order. -/
def paginateArray (arr : List Node) (offset limit : Int) : Option (List Node) :=
  let n : Int := arr.length
  if 0 ≤ offset ∧ n ≤ offset then some []
  else
    let offset : Int := if offset < 0 then 0 else offset
    let stop : Int :=
      if 0 < limit ∧ wrap64 (offset + limit) < n then wrap64 (offset + limit) else n
    if offset ≤ stop then some ((arr.drop offset.toNat).take (stop - offset).toNat)
    else none

/-- Filter, sort, paginate.  Returns the result and the content of the
caller's slice `arr` after the call: `filterArray` builds a new slice,
`sortArray` sorts the slice it is given in place. -/
def pipeline (fmtFloat : F64 → String) (parseFloat : String → Option F64)
    (arr : List Node) (opts : QueryOptions) : Option (List Node) × List Node :=
  if 0 < opts.Filters.length then
    let filtered := filterArray fmtFloat parseFloat arr opts.Filters
    let sorted := if opts.SortKey ≠ "" then sortArray filtered opts.SortKey opts.Desc else filtered
    (paginateArray sorted opts.Offset opts.Limit, arr)
  else
    let sorted := if opts.SortKey ≠ "" then sortArray arr opts.SortKey opts.Desc else arr
    (paginateArray sorted opts.Offset opts.Limit, sorted)

/-- The slice a POST appends to: the resource itself, or a new empty slice
when there is none; `none` when the resource is of another type. -/
def ensureArray (resource : Node) : Option (List Node) :=
  match resource with
  | Node.arr v => some v
  | Node.null => some []
  | _ => none

/-- The standard `path.Join(a, b)` of two non-empty elements. -/
def pathJoin (a b : String) : String :=
  ⟨pathClean (a.data ++ Char.ofNat 47 :: b.data)⟩

/-- The store's part of a POST: read the resource at the request path,
append the new item, write the slice back, and report the `Location` of the
new item.  Returns the location (`none` when the request fails) and the
document after the call. -/
def handlePostRequest (data : Node) (urlPath : String) (newItem : Node) :
    Option String × Node :=
  let existing : Option Node :=
    match Lookup data urlPath with
    | Except.ok v => some v
    | Except.error Err.ErrNotFound => some Node.null
    | Except.error _ => none
  match existing with
  | none => (none, data)
  | some existingResource =>
    match ensureArray existingResource with
    | none => (none, data)
    | some arr =>
      let arr := arr ++ [newItem]
      match Set data urlPath (Node.arr arr) with
      | (some _, data) => (none, data)
      | (none, data) =>
        let index : Int := (arr.length : Int) - 1
        (some (pathJoin urlPath (Itoa index)), data)

end router

/-! ## Query parsing, error reporting and the delete request -/

namespace datatree

/-- The assignment `m[k] = v` on a map of strings. -/
def filterSet (k v : String) : List (String × String) → List (String × String)
  | [] => [(k, v)]
  | e :: m => if e.1 = k then (e.1, v) :: m else e :: filterSet k v m

/-- Converts multi-valued params to a single-value map: every parameter that
has a value, with its first value. -/
def FlattenFilters (vals : List (String × List String)) : List (String × String) :=
  vals.foldl (fun out kv =>
    match kv.2 with
    | [] => out
    | v :: _ => filterSet kv.1 v out) []

end datatree

namespace app

open datatree

/-- The store's `Delete`: with query parameters a bulk delete under the
flattened parameters, without any a single delete.  Returns the error of the
tree operation and the document afterwards (the file write is left out). -/
def Delete (fmtFloat : F64 → String) (data : Node) (path : String)
    (q : List (String × List String)) : Option Err × Node :=
  if 0 < q.length then BulkDelete fmtFloat data path (FlattenFilters q)
  else datatree.Delete data path

end app

namespace router

open datatree

/-- The loop of the standard `strconv.ParseUint(s, 10, 64)` over the digits:
the value, or `false` for a syntax error and `true` for a range error. -/
def parseUintLoop : List Char → Nat → Except Bool Nat
  | [], n => Except.ok n
  | c :: cs, n =>
    if ¬ c.isDigit = true then Except.error false
    else if 2 ^ 64 / 10 + 1 ≤ n then Except.error true
    else if 2 ^ 64 - 1 < n * 10 + (c.toNat - 48) then Except.error true
    else parseUintLoop cs (n * 10 + (c.toNat - 48))

/-- The integer the standard `strconv.Atoi` returns, also when it reports an
error: `0` after a syntax error, the nearest 64-bit integer after a range
error. -/
def atoiValue (s : String) : Int :=
  let body : List Char :=
    match s.data with
    | [] => []
    | c :: rest => if c = Char.ofNat 45 ∨ c = Char.ofNat 43 then rest else c :: rest
  let neg : Bool := s.data.head? = some (Char.ofNat 45)
  if body = [] then 0
  else
    match parseUintLoop body 0 with
    | Except.error false => 0
    | Except.error true => if neg then -(2 ^ 63) else 2 ^ 63 - 1
    | Except.ok un =>
      if ¬ neg = true ∧ 2 ^ 63 ≤ un then 2 ^ 63 - 1
      else if neg = true ∧ 2 ^ 63 < un then -(2 ^ 63)
      else if neg then -(un : Int) else (un : Int)

/-- The body of the loop of `parseQuery` for one key and its first value. -/
def parseQueryStep (opts : QueryOptions) (key v : String) : QueryOptions :=
  if key = "sort" then
    if v ≠ "" then
      if v.data.head? = some (Char.ofNat 45) then
        { opts with Desc := true, SortKey := ⟨v.data.tail⟩ }
      else { opts with Desc := false, SortKey := v }
    else opts
  else if key = "limit" then { opts with Limit := atoiValue v }
  else if key = "page" then
    match Atoi v with
    | some page =>
      if 0 < page ∧ 0 < opts.Limit then { opts with Offset := wrap64 ((page - 1) * opts.Limit) }
      else opts
    | none => opts
  else if key = "offset" then { opts with Offset := atoiValue v }
  else if v ≠ "" then { opts with Filters := filterSet key v opts.Filters }
  else opts

/-- The options of a query.  The argument lists the keys of the `url.Values`
map, each with its values, in the order the `range` loop visits them (an
order the run time chooses); `none` is the run-time panic of `values[0]` on
a key without values. -/
def parseQuery (qs : List (String × List String)) : Option QueryOptions :=
  qs.foldl (fun acc kv =>
    match acc with
    | none => none
    | some opts =>
      match kv.2 with
      | [] => none
      | v :: _ => some (parseQueryStep opts kv.1 v))
    (some { Filters := [], SortKey := "", Desc := false, Offset := 0, Limit := 0 })

/-- The bounds `offset` and `end` of the slice expression `arr[offset:end]`
in `paginateArray`, for a slice of length `n`; `none` when the function
returns before it slices. -/
def paginateBounds (n offset limit : Int) : Option (Int × Int) :=
  if 0 ≤ offset ∧ n ≤ offset then none
  else
    let offset : Int := if offset < 0 then 0 else offset
    let stop : Int :=
      if 0 < limit ∧ wrap64 (offset + limit) < n then wrap64 (offset + limit) else n
    some (offset, stop)

/-- The HTTP status `handleStoreError` answers a store error with: 404 for
`ErrNotFound`, 500 for every other error. -/
def handleStoreError (err : Err) : Nat :=
  if err = Err.ErrNotFound then 404 else 500

/-- The number a `float64` stands for. -/
def f64Value (f : F64) : ℚ :=
  (f.mant : ℚ) * (2 : ℚ) ^ f.exp

/-- The sort field of an element: the value an object binds the key to. -/
def fieldOf (key : String) : Node → Option Node
  | Node.obj m => mapGet key m
  | _ => none

/-- The sort field of the element is the number `v`, or the string `v`. -/
def sameField (key : String) (v : Node) (e : Node) : Bool :=
  match fieldOf key e, v with
  | some (Node.num x), Node.num y => f64Eq x y
  | some (Node.str x), Node.str y => decide (x = y)
  | _, _ => false

/-- The element `a` may stand before `b` in a slice sorted by `key`: numbers
by their value, strings character by character, ascending or (with `desc`)
descending. -/
def InOrder (key : String) (desc : Bool) (a b : Node) : Prop :=
  match fieldOf key a, fieldOf key b with
  | some (Node.num x), some (Node.num y) =>
    if desc then f64Value y ≤ f64Value x else f64Value x ≤ f64Value y
  | some (Node.str x), some (Node.str y) =>
    if desc then stringLt x y = false else stringLt y x = false
  | _, _ => True

/-- One filter of a query matches an item, in the words of the contract of
`filterArray`: an object has the field and its value, a number, is the
number the filter parses to, or, not a number, has the filter as its text;
any other item has the filter named `value` as its text. -/
def filterHit (fmtFloat : F64 → String) (parseFloat : String → Option F64)
    (item : Node) (f : String × String) : Bool :=
  match item with
  | Node.obj obj =>
    match mapGet f.1 obj with
    | none => false
    | some (Node.num v) =>
      match parseFloat f.2 with
      | none => false
      | some w => f64Eq v w
    | some v => decide (Sprint fmtFloat v = f.2)
  | _ => decide (f.1 = "value") && decide (Sprint fmtFloat item = f.2)

end router

/-! ## Lemmas: maps -/

namespace datatree

theorem mapGet_mapSet_self (k : String) (v : Node) (m : List (String × Node)) :
    mapGet k (mapSet k v m) = some v := by
  induction m with
  | nil => simp [mapSet, mapGet]
  | cons e m ih => by_cases h : e.1 = k <;> simp [mapSet, mapGet, h, ih]

theorem mapGet_mapSet_ne {k k' : String} (h : k' ≠ k) (v : Node) (m : List (String × Node)) :
    mapGet k' (mapSet k v m) = mapGet k' m := by
  induction m with
  | nil =>
    have h2 : ¬ k = k' := fun h3 => h h3.symm
    simp [mapSet, mapGet, h2]
  | cons e m ih =>
    obtain ⟨a, b⟩ := e
    by_cases h1 : a = k
    · subst h1
      have h2 : ¬ a = k' := fun h3 => h h3.symm
      simp [mapSet, mapGet, h2]
    · by_cases h2 : a = k'
      · subst h2
        simp [mapSet, mapGet, h1]
      · simp [mapSet, mapGet, h1, h2, ih]

theorem mapSet_mapSet_self (k : String) (v : Node) (m : List (String × Node)) :
    mapSet k v (mapSet k v m) = mapSet k v m := by
  induction m with
  | nil => simp [mapSet]
  | cons e m ih => by_cases h : e.1 = k <;> simp [mapSet, h, ih]

theorem mapGet_mapAdjust (k k' : String) (f : Node → Node) (m : List (String × Node)) :
    mapGet k' (mapAdjust k f m) = if k' = k then (mapGet k m).map f else mapGet k' m := by
  induction m with
  | nil => simp [mapAdjust, mapGet]
  | cons e m ih =>
    by_cases h1 : e.1 = k
    · by_cases h2 : k' = k
      · simp [mapAdjust, mapGet, h1, h2]
      · have h3 : ¬ k = k' := fun h => h2 h.symm
        simp [mapAdjust, mapGet, h1, h2, h3]
    · by_cases h2 : k' = k
      · subst h2
        simp [mapAdjust, mapGet, h1, ih]
      · by_cases h3 : e.1 = k' <;> simp [mapAdjust, mapGet, h1, h2, h3, ih]

theorem mapAdjust_const {k : String} {c : Node} {m : List (String × Node)}
    (h : mapGet k m = some c) (v : Node) : mapAdjust k (fun _ => v) m = mapSet k v m := by
  induction m with
  | nil => simp [mapGet] at h
  | cons e m ih =>
    by_cases h1 : e.1 = k
    · simp [mapAdjust, mapSet, h1]
    · simp [mapGet, h1] at h
      simp [mapAdjust, mapSet, h1, ih h]

theorem mapAdjust_mapAdjust (k : String) (f g : Node → Node) (m : List (String × Node)) :
    mapAdjust k f (mapAdjust k g m) = mapAdjust k (fun x => f (g x)) m := by
  induction m with
  | nil => simp [mapAdjust]
  | cons e m ih => by_cases h : e.1 = k <;> simp [mapAdjust, h, ih]

theorem mapDelete_cons (k : String) (e : String × Node) (m : List (String × Node)) :
    mapDelete k (e :: m) = if e.1 = k then mapDelete k m else e :: mapDelete k m := by
  by_cases h : e.1 = k <;> simp [mapDelete, List.filter, h]

theorem mapGet_mapDelete (k k' : String) (m : List (String × Node)) :
    mapGet k' (mapDelete k m) = if k' = k then none else mapGet k' m := by
  induction m with
  | nil => simp [mapDelete, mapGet]
  | cons e m ih =>
    obtain ⟨a, b⟩ := e
    rw [mapDelete_cons]
    by_cases h1 : a = k
    · subst h1
      by_cases h2 : k' = a
      · subst h2
        simp [ih]
      · have h3 : ¬ a = k' := fun h => h2 h.symm
        simp [mapGet, h2, h3, ih]
    · by_cases h2 : k' = k
      · subst h2
        simp [mapGet, h1, ih]
      · by_cases h3 : a = k'
        · subst h3
          simp [mapGet, h1]
        · simp [mapGet, h1, h2, h3, ih]

theorem mapGet_eq_none_of_not_mem {k : String} {m : List (String × Node)}
    (h : k ∉ m.map Prod.fst) : mapGet k m = none := by
  induction m with
  | nil => rfl
  | cons e m ih =>
    simp only [List.map_cons, List.mem_cons, not_or] at h
    have h1 : ¬ e.1 = k := fun h2 => h.1 h2.symm
    simp [mapGet, h1, ih h.2]

theorem mapGet_mapsCopy (k : String) (src : List (String × Node)) :
    ∀ dst : List (String × Node), (src.map Prod.fst).Nodup →
      mapGet k (mapsCopy dst src) =
        match mapGet k src with
        | some v => some v
        | none => mapGet k dst := by
  induction src with
  | nil => intro dst _; simp [mapsCopy, mapGet]
  | cons e src ih =>
    intro dst hnd
    simp only [List.map_cons, List.nodup_cons] at hnd
    have hstep : mapsCopy dst (e :: src) = mapsCopy (mapSet e.1 e.2 dst) src := by
      simp [mapsCopy]
    rw [hstep, ih _ hnd.2]
    by_cases h : e.1 = k
    · subst h
      simp [mapGet, mapGet_eq_none_of_not_mem hnd.1, mapGet_mapSet_self]
    · have h2 : k ≠ e.1 := fun h3 => h h3.symm
      simp [mapGet, h, mapGet_mapSet_ne h2]

end datatree

/-! ## Lemmas: locations -/

namespace datatree

theorem getAt_append (l1 l2 : Loc) : ∀ root : Node,
    getAt (l1 ++ l2) root = (getAt l1 root).bind (getAt l2) := by
  induction l1 with
  | nil => intro root; simp [getAt]
  | cons st l1 ih =>
    intro root
    cases st with
    | key k =>
      cases root with
      | obj m =>
        simp only [List.cons_append, getAt]
        cases mapGet k m with
        | none => rfl
        | some c => simp [ih]
      | _ => simp [getAt]
    | idx i =>
      cases root with
      | arr xs =>
        simp only [List.cons_append, getAt]
        cases xs.get? i with
        | none => rfl
        | some c => simp [ih]
      | _ => simp [getAt]

theorem getAt_putAt (l : Loc) (new : Node) : ∀ (root x : Node),
    getAt l root = some x → getAt l (putAt l new root) = some new := by
  induction l with
  | nil => intro root x _; simp [getAt, putAt]
  | cons st l ih =>
    intro root x h
    cases st with
    | key k =>
      cases root with
      | obj m =>
        simp only [getAt] at h
        simp only [putAt, getAt, mapGet_mapAdjust, if_true]
        cases hc : mapGet k m with
        | none => simp [hc] at h
        | some c =>
          simp only [hc, Option.bind] at h
          simp [ih c x h]
      | _ => simp [getAt] at h
    | idx i =>
      cases root with
      | arr xs =>
        simp only [getAt] at h
        simp only [putAt, getAt, List.get?_eq_getElem?, List.getElem?_modify]
        rw [List.get?_eq_getElem?] at h
        cases hc : xs[i]? with
        | none => simp [hc] at h
        | some c =>
          simp only [hc, Option.bind] at h
          simp [ih c x h]
      | _ => simp [getAt] at h

theorem modify_modify_same (f g : Node → Node) (i : Nat) (xs : List Node) :
    List.modify f i (List.modify g i xs) = List.modify (fun x => f (g x)) i xs := by
  apply List.ext_getElem?
  intro j
  simp only [List.getElem?_modify]
  cases xs[j]? with
  | none => rfl
  | some c => by_cases h : i = j <;> simp [h]

theorem putAt_putAt (l : Loc) (a b : Node) : ∀ root : Node,
    putAt l a (putAt l b root) = putAt l a root := by
  induction l with
  | nil => intro root; simp [putAt]
  | cons st l ih =>
    intro root
    cases st with
    | key k =>
      cases root with
      | obj m => simp only [putAt, mapAdjust_mapAdjust, ih]
      | _ => simp [putAt]
    | idx i =>
      cases root with
      | arr xs => simp only [putAt, modify_modify_same, ih]
      | _ => simp [putAt]

theorem mapAdjust_congr {k : String} {f g : Node → Node} {m : List (String × Node)} {c : Node}
    (hc : mapGet k m = some c) (h : f c = g c) : mapAdjust k f m = mapAdjust k g m := by
  induction m with
  | nil => rfl
  | cons e m ih =>
    by_cases h1 : e.1 = k
    · simp [mapGet, h1] at hc
      simp [mapAdjust, h1, hc, h]
    · simp [mapGet, h1] at hc
      simp [mapAdjust, h1, ih hc]

theorem modify_congr {i : Nat} {f g : Node → Node} {xs : List Node} {c : Node}
    (hc : xs[i]? = some c) (h : f c = g c) : List.modify f i xs = List.modify g i xs := by
  apply List.ext_getElem?
  intro j
  simp only [List.getElem?_modify]
  by_cases hij : i = j
  · subst hij
    simp [hc, h]
  · simp [hij]

theorem putAt_append (l1 l2 : Loc) (new : Node) : ∀ (root x : Node),
    getAt l1 root = some x → putAt (l1 ++ l2) new root = putAt l1 (putAt l2 new x) root := by
  induction l1 with
  | nil =>
    intro root x h
    simp only [getAt, Option.some.injEq] at h
    simp [putAt, h]
  | cons st l1 ih =>
    intro root x h
    cases st with
    | key k =>
      cases root with
      | obj m =>
        simp only [getAt] at h
        cases hc : mapGet k m with
        | none => simp [hc] at h
        | some c =>
          simp only [hc, Option.bind] at h
          show Node.obj (mapAdjust k (putAt (l1 ++ l2) new) m) = _
          rw [mapAdjust_congr hc (ih c x h)]
          rfl
      | _ => simp [getAt] at h
    | idx i =>
      cases root with
      | arr xs =>
        simp only [getAt, List.get?_eq_getElem?] at h
        cases hc : xs[i]? with
        | none => simp [hc] at h
        | some c =>
          simp only [hc, Option.bind] at h
          show Node.arr (List.modify (putAt (l1 ++ l2) new) i xs) = _
          rw [modify_congr hc (ih c x h)]
          rfl
      | _ => simp [getAt] at h

end datatree

/-! ## Lemmas: the Element Locator -/

namespace datatree

theorem findById_cons (key : String) (el : Node) (rest : List Node) (i : Nat) :
    findById key (el :: rest) i =
      if idKey el = some key then some (el, i) else findById key rest (i + 1) := by
  cases el with
  | obj m =>
    cases h : mapGet "id" m with
    | none => simp [findById, idKey, h]
    | some raw =>
      cases raw with
      | str s => by_cases hs : s = key <;> simp [findById, idKey, idText, h, hs]
      | num f => by_cases hs : Itoa f.toInt = key <;> simp [findById, idKey, idText, h, hs]
      | _ => simp [findById, idKey, idText, h]
  | _ => simp [findById, idKey]

theorem idIndex_ge (key : String) : ∀ (xs : List Node) (i j : Nat),
    idIndex key xs i = some j → i ≤ j := by
  intro xs
  induction xs with
  | nil => intro i j h; simp [idIndex] at h
  | cons el rest ih =>
    intro i j h
    by_cases hk : idKey el = some key
    · simp [idIndex, hk] at h
      omega
    · simp only [idIndex, hk, if_false] at h
      have := ih (i + 1) j h
      omega

theorem idIndex_lt (key : String) : ∀ (xs : List Node) (i j : Nat),
    idIndex key xs i = some j → j < i + xs.length := by
  intro xs
  induction xs with
  | nil => intro i j h; simp [idIndex] at h
  | cons el rest ih =>
    intro i j h
    by_cases hk : idKey el = some key
    · simp [idIndex, hk] at h
      simp only [List.length_cons]
      omega
    · simp only [idIndex, hk, if_false] at h
      have := ih (i + 1) j h
      simp only [List.length_cons]
      omega

theorem idIndex_hit (key : String) : ∀ (xs : List Node) (i j : Nat),
    idIndex key xs i = some j → ∃ el, xs[j - i]? = some el ∧ idKey el = some key := by
  intro xs
  induction xs with
  | nil => intro i j h; simp [idIndex] at h
  | cons el rest ih =>
    intro i j h
    by_cases hk : idKey el = some key
    · simp [idIndex, hk] at h
      subst h
      exact ⟨el, by simp, hk⟩
    · simp only [idIndex, hk, if_false] at h
      obtain ⟨e, he, hke⟩ := ih (i + 1) j h
      have hge := idIndex_ge key rest (i + 1) j h
      refine ⟨e, ?_, hke⟩
      have : j - i = (j - (i + 1)) + 1 := by omega
      rw [this, List.getElem?_cons_succ]
      exact he

theorem findById_eq (key : String) : ∀ (xs : List Node) (i : Nat),
    findById key xs i =
      match idIndex key xs i with
      | some j => (xs[j - i]?).map (fun el => (el, j))
      | none => none := by
  intro xs
  induction xs with
  | nil => intro i; simp [findById, idIndex]
  | cons el rest ih =>
    intro i
    rw [findById_cons]
    by_cases hk : idKey el = some key
    · simp [idIndex, hk]
    · simp only [idIndex, hk, if_false]
      rw [ih (i + 1)]
      cases hj : idIndex key rest (i + 1) with
      | none => rfl
      | some j =>
        have hge := idIndex_ge key rest (i + 1) j hj
        have : j - i = (j - (i + 1)) + 1 := by omega
        simp only [this, List.getElem?_cons_succ]

theorem locateIndex_lt {xs : List Node} {k : String} {i : Nat}
    (h : locateIndex xs k = some i) : i < xs.length := by
  unfold locateIndex at h
  cases hj : idIndex k xs 0 with
  | some j =>
    simp only [hj, Option.some.injEq] at h
    subst h
    have := idIndex_lt k xs 0 j hj
    omega
  | none =>
    simp only [hj] at h
    cases ha : Atoi k with
    | none => simp [ha] at h
    | some idx =>
      simp only [ha] at h
      by_cases hb : 0 ≤ idx ∧ idx < xs.length
      · simp only [hb, and_self, if_true, Option.some.injEq] at h
        subst h
        omega
      · simp [hb] at h

theorem findByKey_eq (xs : List Node) (key : String) :
    findByKey xs key =
      match locateIndex xs (TrimSpace key) with
      | some i =>
        match xs[i]? with
        | some el => Except.ok (el, i)
        | none => Except.error (Err.noElement (TrimSpace key))
      | none => Except.error (Err.noElement (TrimSpace key)) := by
  unfold findByKey locateIndex
  simp only [findById_eq]
  cases hj : idIndex (TrimSpace key) xs 0 with
  | some j =>
    have hlt := idIndex_lt (TrimSpace key) xs 0 j hj
    have hl : j < xs.length := by omega
    simp [List.getElem?_eq_getElem hl]
  | none =>
    simp only
    cases ha : Atoi (TrimSpace key) with
    | none => rfl
    | some idx =>
      simp only
      by_cases hb : 0 ≤ idx ∧ idx < xs.length
      · simp only [hb, and_self, if_true, List.get?_eq_getElem?]
      · simp [hb]

theorem findByKey_ok_iff (xs : List Node) (key : String) (el : Node) (i : Nat) :
    findByKey xs key = Except.ok (el, i) ↔
      locateIndex xs (TrimSpace key) = some i ∧ xs[i]? = some el := by
  rw [findByKey_eq]
  cases hl : locateIndex xs (TrimSpace key) with
  | none => simp
  | some j =>
    have hlt := locateIndex_lt hl
    simp only [List.getElem?_eq_getElem hlt, Option.some.injEq]
    constructor
    · intro h
      injection h with h
      injection h with h1 h2
      subst h2
      exact ⟨rfl, by rw [List.getElem?_eq_getElem hlt, h1]⟩
    · rintro ⟨h1, h2⟩
      subst h1
      rw [List.getElem?_eq_getElem hlt] at h2
      injection h2 with h2
      rw [h2]

theorem findByKey_error_iff (xs : List Node) (key : String) :
    (∃ e, findByKey xs key = Except.error e) ↔ locateIndex xs (TrimSpace key) = none := by
  rw [findByKey_eq]
  cases hl : locateIndex xs (TrimSpace key) with
  | none => simp
  | some j =>
    have hlt := locateIndex_lt hl
    simp [List.getElem?_eq_getElem hlt]

theorem findByKey_error_eq {xs : List Node} {key : String} {e : Err}
    (h : findByKey xs key = Except.error e) : e = Err.noElement (TrimSpace key) := by
  rw [findByKey_eq] at h
  cases hl : locateIndex xs (TrimSpace key) with
  | none =>
    simp only [hl] at h
    injection h with h
    exact h.symm
  | some j =>
    have hlt := locateIndex_lt hl
    simp [hl, List.getElem?_eq_getElem hlt] at h

theorem idIndex_congr (key : String) : ∀ (xs ys : List Node) (i : Nat),
    xs.map idKey = ys.map idKey → idIndex key xs i = idIndex key ys i := by
  intro xs
  induction xs with
  | nil =>
    intro ys i h
    cases ys with
    | nil => rfl
    | cons y ys => simp at h
  | cons x xs ih =>
    intro ys i h
    cases ys with
    | nil => simp at h
    | cons y ys =>
      simp only [List.map_cons, List.cons.injEq] at h
      simp only [idIndex, h.1, ih ys (i + 1) h.2]

theorem locateIndex_congr {xs ys : List Node} (k : String)
    (h : xs.map idKey = ys.map idKey) : locateIndex xs k = locateIndex ys k := by
  have hlen : xs.length = ys.length := by
    have := congrArg List.length h
    simpa using this
  unfold locateIndex
  rw [idIndex_congr k xs ys 0 h, hlen]

theorem map_idKey_modify {xs : List Node} {i : Nat} {f : Node → Node}
    (h : ∀ c, xs[i]? = some c → idKey (f c) = idKey c) :
    (List.modify f i xs).map idKey = xs.map idKey := by
  apply List.ext_getElem?
  intro j
  simp only [List.getElem?_map, List.getElem?_modify]
  cases hc : xs[j]? with
  | none => rfl
  | some c =>
    by_cases hij : i = j
    · subst hij
      simp [h c hc]
    · simp [hij]

theorem idIndex_set_hit (key : String) (v : Node) (hv : idKey v = some key) :
    ∀ (xs : List Node) (s j : Nat), idIndex key xs s = some j →
      idIndex key (xs.set (j - s) v) s = some j := by
  intro xs
  induction xs with
  | nil => intro s j h; simp [idIndex] at h
  | cons el rest ih =>
    intro s j h
    by_cases hk : idKey el = some key
    · simp [idIndex, hk] at h
      subst h
      simp [idIndex, hv]
    · simp only [idIndex, hk, if_false] at h
      have hge := idIndex_ge key rest (s + 1) j h
      have : j - s = (j - (s + 1)) + 1 := by omega
      rw [this, List.set_cons_succ]
      simp only [idIndex, hk, if_false]
      exact ih (s + 1) j h

theorem idIndex_set_none (key : String) (v : Node) :
    ∀ (xs : List Node) (s i : Nat), idIndex key xs s = none → i < xs.length →
      idIndex key (xs.set i v) s = if idKey v = some key then some (s + i) else none := by
  intro xs
  induction xs with
  | nil => intro s i _ hi; simp at hi
  | cons el rest ih =>
    intro s i h hi
    by_cases hk : idKey el = some key
    · simp [idIndex, hk] at h
    · simp only [idIndex, hk, if_false] at h
      cases i with
      | zero =>
        by_cases hv : idKey v = some key
        · simp [idIndex, hv]
        · simp [idIndex, hv, h]
      | succ i =>
        simp only [List.length_cons, Nat.succ_lt_succ_iff] at hi
        simp only [List.set_cons_succ, idIndex, hk, if_false]
        rw [ih (s + 1) i h hi]
        by_cases hv : idKey v = some key
        · simp [hv]; omega
        · simp [hv]

theorem locateIndex_set {xs : List Node} {k : String} {i : Nat} (v : Node)
    (h : locateIndex xs k = some i) (hst : idIndex k xs 0 = none ∨ idKey v = some k) :
    locateIndex (xs.set i v) k = some i := by
  have hlt := locateIndex_lt h
  unfold locateIndex at h ⊢
  cases hj : idIndex k xs 0 with
  | some j =>
    simp only [hj, Option.some.injEq] at h
    subst h
    rcases hst with hst | hst
    · simp [hj] at hst
    · have := idIndex_set_hit k v hst xs 0 j hj
      simp only [Nat.sub_zero] at this
      simp [this]
  | none =>
    simp only [hj] at h
    rw [idIndex_set_none k v xs 0 i hj hlt]
    by_cases hv : idKey v = some k
    · simp [hv]
    · simp only [hv, if_false, List.length_set]
      exact h

end datatree

/-! ## Lemmas: the Path Resolver -/

namespace datatree

theorem descend_nil (curr : Node) (seen : List String) :
    descend curr [] seen = Except.ok (curr, []) := by
  cases curr <;> rfl

theorem descend_cons_ok {root : Node} {seg : String} {rest seen : List String} {n : Node}
    {l : Loc} (h : descend root (seg :: rest) seen = Except.ok (n, l)) :
    (∃ m nxt l', root = Node.obj m ∧ mapGet seg m = some nxt ∧
        descend nxt rest (seen ++ [seg]) = Except.ok (n, l') ∧ l = Step.key seg :: l') ∨
    (∃ xs el i l', root = Node.arr xs ∧ findByKey xs seg = Except.ok (el, i) ∧
        descend el rest (seen ++ [seg]) = Except.ok (n, l') ∧ l = Step.idx i :: l') := by
  cases root with
  | obj m =>
    left
    simp only [descend] at h
    cases hc : mapGet seg m with
    | none => simp [hc] at h
    | some nxt =>
      simp only [hc] at h
      cases hd : descend nxt rest (seen ++ [seg]) with
      | error e => simp [hd] at h
      | ok r =>
        obtain ⟨n', l'⟩ := r
        simp only [hd] at h
        injection h with h
        injection h with h1 h2
        subst h1
        exact ⟨m, nxt, l', rfl, hc, hd, h2.symm⟩
  | arr xs =>
    right
    simp only [descend] at h
    cases hc : findByKey xs seg with
    | error e => simp [hc] at h
    | ok r0 =>
      obtain ⟨el, i⟩ := r0
      simp only [hc] at h
      cases hd : descend el rest (seen ++ [seg]) with
      | error e => simp [hd] at h
      | ok r =>
        obtain ⟨n', l'⟩ := r
        simp only [hd] at h
        injection h with h
        injection h with h1 h2
        subst h1
        exact ⟨xs, el, i, l', rfl, hc, hd, h2.symm⟩
  | null => simp [descend] at h
  | bool b => simp [descend] at h
  | num x => simp [descend] at h
  | str s => simp [descend] at h

theorem descend_obj_step {m : List (String × Node)} {seg : String} {nxt n : Node}
    {rest seen : List String} {l : Loc} (hc : mapGet seg m = some nxt)
    (hd : descend nxt rest (seen ++ [seg]) = Except.ok (n, l)) :
    descend (Node.obj m) (seg :: rest) seen = Except.ok (n, Step.key seg :: l) := by
  simp [descend, hc, hd]

theorem descend_arr_step {xs : List Node} {seg : String} {el n : Node} {i : Nat}
    {rest seen : List String} {l : Loc} (hc : findByKey xs seg = Except.ok (el, i))
    (hd : descend el rest (seen ++ [seg]) = Except.ok (n, l)) :
    descend (Node.arr xs) (seg :: rest) seen = Except.ok (n, Step.idx i :: l) := by
  simp [descend, hc, hd]

theorem descend_seen (segs : List String) : ∀ (root : Node) (seen seen' : List String)
    (r : Node × Loc), descend root segs seen = Except.ok r →
      descend root segs seen' = Except.ok r := by
  induction segs with
  | nil => intro root seen seen' r h; rw [descend_nil] at h ⊢; exact h
  | cons seg rest ih =>
    intro root seen seen' r h
    obtain ⟨n, l⟩ := r
    rcases descend_cons_ok h with ⟨m, nxt, l', rfl, hc, hd, rfl⟩ | ⟨xs, el, i, l', rfl, hc, hd, rfl⟩
    · exact descend_obj_step hc (ih _ _ _ _ hd)
    · exact descend_arr_step hc (ih _ _ _ _ hd)

theorem descend_getAt (segs : List String) : ∀ (root : Node) (seen : List String)
    (n : Node) (l : Loc), descend root segs seen = Except.ok (n, l) → getAt l root = some n := by
  induction segs with
  | nil =>
    intro root seen n l h
    rw [descend_nil] at h
    injection h with h
    injection h with h1 h2
    subst h1 h2
    rfl
  | cons seg rest ih =>
    intro root seen n l h
    rcases descend_cons_ok h with ⟨m, nxt, l', rfl, hc, hd, rfl⟩ | ⟨xs, el, i, l', rfl, hc, hd, rfl⟩
    · simp [getAt, hc, ih _ _ _ _ hd]
    · have hi := ((findByKey_ok_iff xs seg el i).1 hc).2
      simp [getAt, hi, ih _ _ _ _ hd]

theorem similar_refl (a : Node) : Similar a a := ⟨rfl, rfl⟩

theorem similar_obj_adjust {m : List (String × Node)} {k : String} {f : Node → Node}
    (h : ∀ c, mapGet k m = some c → idText (f c) = idText c) :
    Similar (Node.obj (mapAdjust k f m)) (Node.obj m) := by
  refine ⟨?_, rfl⟩
  simp only [idKey, mapGet_mapAdjust]
  by_cases hk : "id" = k
  · subst hk
    simp only [if_true]
    cases hc : mapGet "id" m with
    | none => rfl
    | some c => simp [h c hc]
  · simp [hk]

theorem similar_arr (xs ys : List Node) : Similar (Node.arr xs) (Node.arr ys) := ⟨rfl, rfl⟩

theorem findByKey_modify {xs : List Node} {seg : String} {el : Node} {i : Nat}
    {f : Node → Node} (hc : findByKey xs seg = Except.ok (el, i))
    (hf : idKey (f el) = idKey el) :
    findByKey (List.modify f i xs) seg = Except.ok (f el, i) := by
  obtain ⟨h1, h2⟩ := (findByKey_ok_iff xs seg el i).1 hc
  rw [findByKey_ok_iff]
  constructor
  · rw [← h1]
    apply locateIndex_congr
    apply map_idKey_modify
    intro c hc'
    rw [h2] at hc'
    injection hc' with hc'
    subst hc'
    exact hf
  · simp [List.getElem?_modify, h2]

theorem descend_putAt (segs : List String) : ∀ (root : Node) (seen : List String)
    (n : Node) (l : Loc), descend root segs seen = Except.ok (n, l) →
      ∀ n' : Node, Similar n' n →
        descend (putAt l n' root) segs seen = Except.ok (n', l) ∧
          Similar (putAt l n' root) root := by
  induction segs with
  | nil =>
    intro root seen n l h n' hs
    rw [descend_nil] at h
    injection h with h
    injection h with h1 h2
    subst h1 h2
    exact ⟨by rw [putAt, descend_nil], hs⟩
  | cons seg rest ih =>
    intro root seen n l h n' hs
    rcases descend_cons_ok h with ⟨m, nxt, l', rfl, hc, hd, rfl⟩ | ⟨xs, el, i, l', rfl, hc, hd, rfl⟩
    · obtain ⟨h1, h2⟩ := ih _ _ _ _ hd n' hs
      constructor
      · have hget : mapGet seg (mapAdjust seg (putAt l' n') m) = some (putAt l' n' nxt) := by
          simp [mapGet_mapAdjust, hc]
        exact descend_obj_step hget h1
      · apply similar_obj_adjust
        intro c hc'
        rw [hc] at hc'
        injection hc' with hc'
        subst hc'
        exact h2.2
    · obtain ⟨h1, h2⟩ := ih _ _ _ _ hd n' hs
      constructor
      · exact descend_arr_step (findByKey_modify hc h2.1) h1
      · exact similar_arr _ _

theorem descend_snoc (segs : List String) (s : String) : ∀ (root : Node) (seen : List String)
    (n : Node) (l : Loc), descend root (segs ++ [s]) seen = Except.ok (n, l) →
      ∃ g lg st, descend root segs seen = Except.ok (g, lg) ∧
        descend g [s] [] = Except.ok (n, [st]) ∧ l = lg ++ [st] := by
  induction segs with
  | nil =>
    intro root seen n l h
    simp only [List.nil_append] at h
    refine ⟨root, [], ?_⟩
    rcases descend_cons_ok h with ⟨m, nxt, l', rfl, hc, hd, rfl⟩ | ⟨xs, el, i, l', rfl, hc, hd, rfl⟩
    · rw [descend_nil] at hd
      injection hd with hd
      injection hd with h1 h2
      subst h1 h2
      exact ⟨Step.key s, descend_nil _ _, descend_obj_step hc (descend_nil _ _), rfl⟩
    · rw [descend_nil] at hd
      injection hd with hd
      injection hd with h1 h2
      subst h1 h2
      exact ⟨Step.idx i, descend_nil _ _, descend_arr_step hc (descend_nil _ _), rfl⟩
  | cons seg rest ih =>
    intro root seen n l h
    simp only [List.cons_append] at h
    rcases descend_cons_ok h with ⟨m, nxt, l', rfl, hc, hd, rfl⟩ | ⟨xs, el, i, l', rfl, hc, hd, rfl⟩
    · obtain ⟨g, lg, st, h1, h2, h3⟩ := ih _ _ _ _ hd
      exact ⟨g, Step.key seg :: lg, st, descend_obj_step hc h1, h2, by simp [h3]⟩
    · obtain ⟨g, lg, st, h1, h2, h3⟩ := ih _ _ _ _ hd
      exact ⟨g, Step.idx i :: lg, st, descend_arr_step hc h1, h2, by simp [h3]⟩

theorem descend_append_one (segs : List String) (s : String) : ∀ (root : Node)
    (seen : List String) (g n : Node) (lg : Loc) (st : Step),
      descend root segs seen = Except.ok (g, lg) →
      descend g [s] [] = Except.ok (n, [st]) →
      descend root (segs ++ [s]) seen = Except.ok (n, lg ++ [st]) := by
  induction segs with
  | nil =>
    intro root seen g n lg st h1 h2
    rw [descend_nil] at h1
    injection h1 with h1
    injection h1 with h3 h4
    subst h3 h4
    simpa using descend_seen _ _ _ _ _ h2
  | cons seg rest ih =>
    intro root seen g n lg st h1 h2
    rcases descend_cons_ok h1 with ⟨m, nxt, l', rfl, hc, hd, rfl⟩ | ⟨xs, el, i, l', rfl, hc, hd, rfl⟩
    · exact descend_obj_step hc (ih _ _ _ _ _ _ hd h2)
    · exact descend_arr_step hc (ih _ _ _ _ _ _ hd h2)

end datatree

/-! ## Lemmas: path splitting -/

namespace datatree

theorem splitSlash_ne_nil (s : List Char) : splitSlash s ≠ [] := by
  cases s with
  | nil => simp [splitSlash]
  | cons c cs =>
    by_cases h : c = Char.ofNat 47
    · simp [splitSlash, h]
    · simp only [splitSlash, h, if_false]
      cases splitSlash cs <;> simp

theorem splitSlash_noslash (p : List Char) (h : Char.ofNat 47 ∉ p) : splitSlash p = [p] := by
  induction p with
  | nil => rfl
  | cons c cs ih =>
    simp only [List.mem_cons, not_or] at h
    have hc : ¬ c = Char.ofNat 47 := fun h1 => h.1 h1.symm
    simp [splitSlash, hc, ih h.2]

theorem splitSlash_append_slash (p rest : List Char) (h : Char.ofNat 47 ∉ p) :
    splitSlash (p ++ Char.ofNat 47 :: rest) = p :: splitSlash rest := by
  induction p with
  | nil => simp [splitSlash]
  | cons c cs ih =>
    simp only [List.mem_cons, not_or] at h
    have hc : ¬ c = Char.ofNat 47 := fun h1 => h.1 h1.symm
    simp [splitSlash, hc, ih h.2]

theorem splitSlash_no_slash_mem (s : List Char) : ∀ p ∈ splitSlash s, Char.ofNat 47 ∉ p := by
  induction s with
  | nil => intro p hp; simp [splitSlash] at hp; subst hp; simp
  | cons c cs ih =>
    intro p hp
    by_cases h : c = Char.ofNat 47
    · simp only [splitSlash, h, if_true, List.mem_cons] at hp
      rcases hp with hp | hp
      · subst hp; simp
      · exact ih p hp
    · simp only [splitSlash, h, if_false] at hp
      cases hs : splitSlash cs with
      | nil => exact absurd hs (splitSlash_ne_nil cs)
      | cons q qs =>
        simp only [hs, List.mem_cons] at hp
        rcases hp with hp | hp
        · subst hp
          have hq := ih q (by simp [hs])
          simp only [List.mem_cons, not_or]
          exact ⟨fun h1 => h h1.symm, hq⟩
        · exact ih p (by simp [hs, hp])

theorem splitSlash_joinSlash (cs : List (List Char)) (hne : cs ≠ [])
    (h : ∀ c ∈ cs, Char.ofNat 47 ∉ c) : splitSlash (joinSlash cs) = cs := by
  induction cs with
  | nil => exact absurd rfl hne
  | cons p ps ih =>
    cases ps with
    | nil => simpa [joinSlash] using splitSlash_noslash p (h p (by simp))
    | cons q qs =>
      simp only [joinSlash]
      rw [splitSlash_append_slash p _ (h p (by simp))]
      rw [ih (by simp) (fun c hc => h c (by simp [hc]))]

theorem cleanStep_clean (kept : List (List Char)) (comp : List Char)
    (hk : ∀ c ∈ kept, CleanSeg c) (hc : Char.ofNat 47 ∉ comp) :
    ∀ c ∈ cleanStep true kept comp, CleanSeg c := by
  unfold cleanStep
  by_cases h1 : comp = [] ∨ comp = [Char.ofNat 46]
  · simpa [h1] using hk
  · simp only [h1, if_false]
    by_cases h2 : comp = [Char.ofNat 46, Char.ofNat 46]
    · simp only [h2, if_true]
      cases kept with
      | nil => simp
      | cons top rest =>
        have htop : top ≠ [Char.ofNat 46, Char.ofNat 46] := (hk top (by simp)).2.2.1
        simp only [htop, if_false]
        intro c hc'
        exact hk c (by simp [hc'])
    · simp only [h2, if_false]
      intro c hc'
      simp only [List.mem_cons] at hc'
      rcases hc' with hc' | hc'
      · subst hc'
        simp only [not_or] at h1
        exact ⟨h1.1, h1.2, h2, hc⟩
      · exact hk c hc'

theorem foldl_cleanStep_clean (comps : List (List Char)) : ∀ (kept : List (List Char)),
    (∀ c ∈ kept, CleanSeg c) → (∀ p ∈ comps, Char.ofNat 47 ∉ p) →
      ∀ c ∈ comps.foldl (cleanStep true) kept, CleanSeg c := by
  induction comps with
  | nil => intro kept hk _; simpa using hk
  | cons p ps ih =>
    intro kept hk hp
    simp only [List.foldl_cons]
    exact ih _ (cleanStep_clean kept p hk (hp p (by simp))) (fun q hq => hp q (by simp [hq]))

theorem cleanElems_clean (p : List Char) : ∀ c ∈ cleanElems true p, CleanSeg c := by
  intro c hc
  simp only [cleanElems, List.mem_reverse] at hc
  exact foldl_cleanStep_clean _ [] (by simp) (splitSlash_no_slash_mem p) c hc

theorem foldl_cleanStep_of_clean (comps : List (List Char)) : ∀ (kept : List (List Char)),
    (∀ c ∈ comps, CleanSeg c) → comps.foldl (cleanStep true) kept = comps.reverse ++ kept := by
  induction comps with
  | nil => intro kept _; simp
  | cons p ps ih =>
    intro kept hp
    obtain ⟨h1, h2, h3, _⟩ := hp p (by simp)
    have hstep : cleanStep true kept p = p :: kept := by
      simp [cleanStep, h1, h2, h3]
    simp only [List.foldl_cons, hstep]
    rw [ih _ (fun q hq => hp q (by simp [hq]))]
    simp

theorem joinSlash_head (cs : List (List Char)) (h : ∀ c ∈ cs, CleanSeg c) :
    (joinSlash cs).head? ≠ some (Char.ofNat 47) := by
  cases cs with
  | nil => simp [joinSlash]
  | cons p ps =>
    obtain ⟨h1, _, _, h4⟩ := h p (by simp)
    cases p with
    | nil => exact absurd rfl h1
    | cons a as =>
      simp only [List.mem_cons, not_or] at h4
      cases ps with
      | nil => simpa [joinSlash] using fun h5 => h4.1 h5.symm
      | cons q qs => simpa [joinSlash] using fun h5 => h4.1 h5.symm

theorem joinSlash_getLast (cs : List (List Char)) (h : ∀ c ∈ cs, CleanSeg c) :
    (joinSlash cs).getLast? ≠ some (Char.ofNat 47) := by
  induction cs with
  | nil => simp [joinSlash]
  | cons p ps ih =>
    obtain ⟨h1, _, _, h4⟩ := h p (by simp)
    cases ps with
    | nil =>
      simp only [joinSlash]
      intro h5
      exact h4 (List.mem_of_getLast?_eq_some h5)
    | cons q qs =>
      have ih' := ih (fun c hc => h c (by simp [hc]))
      simp only [joinSlash] at ih' ⊢
      intro h5
      apply ih'
      have hq : joinSlash (q :: qs) ≠ [] := by
        obtain ⟨hq1, _, _, _⟩ := h q (by simp)
        cases q with
        | nil => exact absurd rfl hq1
        | cons b bs => cases qs <;> simp [joinSlash]
      have h6 : (p ++ Char.ofNat 47 :: joinSlash (q :: qs)) =
          (p ++ [Char.ofNat 47]) ++ joinSlash (q :: qs) := by simp
      rw [h6, List.getLast?_append_of_ne_nil _ hq] at h5
      exact h5

theorem joinSlash_eq_nil (cs : List (List Char)) (h : ∀ c ∈ cs, CleanSeg c) :
    joinSlash cs = [] ↔ cs = [] := by
  cases cs with
  | nil => simp [joinSlash]
  | cons p ps =>
    obtain ⟨h1, _, _, _⟩ := h p (by simp)
    cases p with
    | nil => exact absurd rfl h1
    | cons a as => cases ps <;> simp [joinSlash]

theorem dropWhile_eq_self_of_head {p : Char → Bool} {s : List Char}
    (h : ∀ c, s.head? = some c → p c = false) : s.dropWhile p = s := by
  cases s with
  | nil => rfl
  | cons a as => simp [List.dropWhile, h a (by simp)]

theorem trimSlash_eq_self (s : List Char) (h1 : s.head? ≠ some (Char.ofNat 47))
    (h2 : s.getLast? ≠ some (Char.ofNat 47)) : trimSlash s = s := by
  have e1 : s.dropWhile (fun c => decide (c = Char.ofNat 47)) = s := by
    apply dropWhile_eq_self_of_head
    intro c hc
    simp only [decide_eq_false_iff_not]
    intro h3
    subst h3
    exact h1 hc
  have e2 : s.reverse.dropWhile (fun c => decide (c = Char.ofNat 47)) = s.reverse := by
    apply dropWhile_eq_self_of_head
    intro c hc
    rw [List.head?_reverse] at hc
    simp only [decide_eq_false_iff_not]
    intro h3
    subst h3
    exact h2 hc
  unfold trimSlash
  rw [e1, e2, List.reverse_reverse]

theorem trimSlash_cons_slash (s : List Char) :
    trimSlash (Char.ofNat 47 :: s) = trimSlash s := by
  simp [trimSlash, List.dropWhile]

theorem splitPath_eq (urlPath : String) :
    splitPath urlPath = (cleanElems true (Char.ofNat 47 :: urlPath.data)).map String.mk := by
  have hclean := cleanElems_clean (Char.ofNat 47 :: urlPath.data)
  have hp : pathClean (Char.ofNat 47 :: urlPath.data) =
      Char.ofNat 47 :: joinSlash (cleanElems true (Char.ofNat 47 :: urlPath.data)) := by
    simp [pathClean]
  unfold splitPath
  simp only [hp, trimSlash_cons_slash]
  generalize cleanElems true (Char.ofNat 47 :: urlPath.data) = cs at hclean
  rw [trimSlash_eq_self _ (joinSlash_head cs hclean) (joinSlash_getLast cs hclean)]
  by_cases hcs : cs = []
  · subst hcs
    simp [joinSlash]
  · have hj : joinSlash cs ≠ [] := fun h => hcs ((joinSlash_eq_nil cs hclean).1 h)
    simp only [hj, if_false]
    rw [splitSlash_joinSlash cs hcs (fun c hc => (hclean c hc).2.2.2)]

theorem splitPath_clean (urlPath : String) : ∀ s ∈ splitPath urlPath, CleanSeg s.data := by
  intro s hs
  rw [splitPath_eq, List.mem_map] at hs
  obtain ⟨c, hc, rfl⟩ := hs
  exact cleanElems_clean _ c hc

theorem splitPath_Join (parts : List String) (h : ∀ s ∈ parts, CleanSeg s.data) :
    splitPath (Join parts) = parts := by
  have hcs : ∀ c ∈ parts.map String.data, CleanSeg c := by
    intro c hc
    rw [List.mem_map] at hc
    obtain ⟨s, hs, rfl⟩ := hc
    exact h s hs
  rw [splitPath_eq]
  show (cleanElems true (Char.ofNat 47 :: joinSlash (parts.map String.data))).map String.mk = parts
  have hsplit : splitSlash (Char.ofNat 47 :: joinSlash (parts.map String.data)) =
      [] :: splitSlash (joinSlash (parts.map String.data)) := by
    simp [splitSlash]
  have hstep : cleanStep true [] [] = [] := by simp [cleanStep]
  unfold cleanElems
  rw [hsplit, List.foldl_cons, hstep]
  by_cases hp : parts = []
  · subst hp
    simp [joinSlash, splitSlash, cleanStep]
  · have hne : parts.map String.data ≠ [] := by simpa using hp
    rw [splitSlash_joinSlash _ hne (fun c hc => (hcs c hc).2.2.2)]
    rw [foldl_cleanStep_of_clean _ _ hcs]
    simp [List.map_map, Function.comp_def]

theorem splitPath_Join_dropLast (urlPath : String) :
    splitPath (Join (splitPath urlPath).dropLast) = (splitPath urlPath).dropLast :=
  splitPath_Join _ (fun s hs => splitPath_clean urlPath s (List.mem_of_mem_dropLast hs))

end datatree

/-! ## Lemmas: Set and traverse -/

namespace datatree

theorem traverse_ok_iff (root : Node) (parts : List String) (n : Node) (last : String)
    (loc : Loc) :
    traverse root parts = Except.ok (n, last, loc) ↔
      parts.getLast? = some last ∧ descend root parts.dropLast [] = Except.ok (n, loc) := by
  unfold traverse
  cases hl : parts.getLast? with
  | none => simp
  | some l =>
    cases hd : descend root parts.dropLast [] with
    | error e => simp
    | ok r =>
      obtain ⟨n', loc'⟩ := r
      simp only [Except.ok.injEq, Prod.mk.injEq, Option.some.injEq]
      constructor
      · rintro ⟨h1, h2, h3⟩
        exact ⟨h2, h1, h3⟩
      · rintro ⟨h1, h2, h3⟩
        exact ⟨h2, h1, h3⟩

theorem traverse_putAt {root : Node} {parts : List String} {n : Node} {last : String}
    {loc : Loc} (h : traverse root parts = Except.ok (n, last, loc)) (n' : Node)
    (hs : Similar n' n) :
    traverse (putAt loc n' root) parts = Except.ok (n', last, loc) := by
  rw [traverse_ok_iff] at h ⊢
  exact ⟨h.1, (descend_putAt _ _ _ _ _ h.2 n' hs).1⟩

theorem traverse_getAt {root : Node} {parts : List String} {n : Node} {last : String}
    {loc : Loc} (h : traverse root parts = Except.ok (n, last, loc)) :
    getAt loc root = some n :=
  descend_getAt _ _ _ _ _ ((traverse_ok_iff _ _ _ _ _).1 h).2

theorem traverse_ne_nil {root : Node} {parts : List String} {r : Node × String × Loc}
    (h : traverse root parts = Except.ok r) : parts.length ≠ 0 := by
  intro h0
  have : parts = [] := List.length_eq_zero.1 h0
  subst this
  simp [traverse] at h

theorem Set_obj {root : Node} {urlPath : String} {m : List (String × Node)} {last : String}
    {loc : Loc} (h : traverse root (splitPath urlPath) = Except.ok (Node.obj m, last, loc))
    (v : Node) : Set root urlPath v = (none, putAt loc (Node.obj (mapSet last v m)) root) := by
  simp [Set, h]

theorem Set_arr {root : Node} {urlPath : String} {xs : List Node} {last : String} {loc : Loc}
    {el : Node} {i : Nat}
    (h : traverse root (splitPath urlPath) = Except.ok (Node.arr xs, last, loc))
    (hf : findByKey xs last = Except.ok (el, i)) (v : Node) :
    Set root urlPath v = (none, putAt loc (Node.arr (xs.set i v)) root) := by
  simp [Set, h, findIndex, hf]

theorem Set_arr_error {root : Node} {urlPath : String} {xs : List Node} {last : String}
    {loc : Loc} {e : Err}
    (h : traverse root (splitPath urlPath) = Except.ok (Node.arr xs, last, loc))
    (hf : findByKey xs last = Except.error e) (v : Node) :
    Set root urlPath v = (some e, root) := by
  simp [Set, h, findIndex, hf]

theorem Set_ok_cases {root : Node} {urlPath : String} {v : Node}
    (h : (Set root urlPath v).1 = none) :
    ∃ last loc,
      (∃ m, traverse root (splitPath urlPath) = Except.ok (Node.obj m, last, loc)) ∨
      (∃ xs el i, traverse root (splitPath urlPath) = Except.ok (Node.arr xs, last, loc) ∧
        findByKey xs last = Except.ok (el, i)) := by
  cases ht : traverse root (splitPath urlPath) with
  | error e => simp [Set, ht] at h
  | ok r =>
    obtain ⟨parent, last, loc⟩ := r
    refine ⟨last, loc, ?_⟩
    cases parent with
    | obj m => exact Or.inl ⟨m, rfl⟩
    | arr xs =>
      cases hf : findByKey xs last with
      | error e => rw [Set_arr_error ht hf] at h; simp at h
      | ok r =>
        obtain ⟨el, i⟩ := r
        exact Or.inr ⟨xs, el, i, rfl, hf⟩
    | null => simp [Set, ht] at h
    | bool b => simp [Set, ht] at h
    | num x => simp [Set, ht] at h
    | str s => simp [Set, ht] at h

theorem Lookup_obj {root : Node} {urlPath : String} {m : List (String × Node)} {last : String}
    {loc : Loc} {v : Node}
    (h : traverse root (splitPath urlPath) = Except.ok (Node.obj m, last, loc))
    (hv : mapGet last m = some v) : Lookup root urlPath = Except.ok v := by
  have hne := traverse_ne_nil h
  simp [Lookup, LookupRef, hne, h, hv]

theorem Lookup_arr {root : Node} {urlPath : String} {xs : List Node} {last : String}
    {loc : Loc} {v : Node} {i : Nat}
    (h : traverse root (splitPath urlPath) = Except.ok (Node.arr xs, last, loc))
    (hv : findByKey xs last = Except.ok (v, i)) : Lookup root urlPath = Except.ok v := by
  have hne := traverse_ne_nil h
  simp [Lookup, LookupRef, hne, h, hv]

theorem findByKey_set {xs : List Node} {last : String} {el : Node} {i : Nat} (v : Node)
    (hf : findByKey xs last = Except.ok (el, i))
    (hst : idIndex (TrimSpace last) xs 0 = none ∨ idKey v = some (TrimSpace last)) :
    findByKey (xs.set i v) last = Except.ok (v, i) := by
  obtain ⟨h1, _⟩ := (findByKey_ok_iff xs last el i).1 hf
  rw [findByKey_ok_iff]
  exact ⟨locateIndex_set v h1 hst, List.getElem?_set_self (locateIndex_lt h1)⟩

theorem descend_putAt_obj {root : Node} {segs : List String} {m m' : List (String × Node)}
    {loc : Loc} (h : descend root segs [] = Except.ok (Node.obj m, loc))
    (hloc : ∀ l i, loc ≠ l ++ [Step.idx i]) :
    descend (putAt loc (Node.obj m') root) segs [] = Except.ok (Node.obj m', loc) := by
  by_cases hne : segs = []
  · subst hne
    rw [descend_nil] at h
    injection h with h
    injection h with h1 h2
    subst h2
    rw [putAt, descend_nil]
  · have hsegs : segs = segs.dropLast ++ [segs.getLast hne] :=
      (List.dropLast_concat_getLast hne).symm
    rw [hsegs] at h ⊢
    obtain ⟨g, lg, st, h1, h2, rfl⟩ := descend_snoc _ _ _ _ _ _ h
    rcases descend_cons_ok h2 with ⟨gm, nxt, l', rfl, hc, hd, hl⟩ | ⟨ys, el, j, l', rfl, _, _, hl⟩
    · rw [descend_nil] at hd
      injection hd with hd
      injection hd with h3 h4
      subst h3 h4
      injection hl with hl _
      subst hl
      rw [putAt_append lg _ _ root _ (descend_getAt _ _ _ _ _ h1)]
      have hsim : Similar (putAt [Step.key (segs.getLast hne)] (Node.obj m') (Node.obj gm))
          (Node.obj gm) := by
        apply similar_obj_adjust
        intro c hc'
        rw [hc] at hc'
        injection hc' with hc'
        subst hc'
        simp [putAt, idText]
      refine descend_append_one _ _ _ _ _ _ _ _ (descend_putAt _ _ _ _ _ h1 _ hsim).1 ?_
      have hget : mapGet (segs.getLast hne)
          (mapAdjust (segs.getLast hne) (putAt [] (Node.obj m')) gm) = some (Node.obj m') := by
        simp [mapGet_mapAdjust, hc, putAt]
      exact descend_obj_step hget (descend_nil _ _)
    · injection hl with hl _
      exact absurd (by rw [hl]) (hloc lg j)

theorem traverse_putAt_stable {root : Node} {parts : List String} {m : List (String × Node)}
    {last : String} {loc : Loc} (m' : List (String × Node))
    (h : traverse root parts = Except.ok (Node.obj m, last, loc))
    (hst : (∀ l i, loc ≠ l ++ [Step.idx i]) ∨ idKey (Node.obj m') = idKey (Node.obj m)) :
    traverse (putAt loc (Node.obj m') root) parts = Except.ok (Node.obj m', last, loc) := by
  rcases hst with hst | hst
  · rw [traverse_ok_iff] at h ⊢
    exact ⟨h.1, descend_putAt_obj h.2 hst⟩
  · exact traverse_putAt h _ ⟨hst, rfl⟩

/-! ## C1, C2: Set followed by Lookup, Set twice -/

/-- C1 (claim as stated fails): on `{"items":[{"id":1,..},{"id":2,..}]}` the
write `Set items/1 := "x"` succeeds (it replaces the element of id 1), and
`Lookup items/1` on the result does not return `"x"`: no element has id 1
any more, so the segment is read as position 1. -/
theorem Lookup_Set_roundtrip_fails :
    (Set itemsDoc "items/1" (Node.str "x")).1 = none ∧
      Lookup (Set itemsDoc "items/1" (Node.str "x")).2 "items/1" =
        Except.ok (Node.obj [("id", int 2), ("name", Node.str "b")]) ∧
      Lookup (Set itemsDoc "items/1" (Node.str "x")).2 "items/1" ≠
        Except.ok (Node.str "x") := by
  refine ⟨rfl, rfl, ?_⟩
  intro h
  cases h

/-- C1 (amended): for every document, path and value such that `Set`
succeeds and the write does not change an identity the path is resolved by
(`StableWrite`), `Lookup` at the same path on the resulting document succeeds
and returns exactly the value written. -/
theorem Lookup_Set_roundtrip (d : Node) (p : String) (v : Node)
    (hset : (Set d p v).1 = none) (hst : StableWrite d p v) :
    Lookup (Set d p v).2 p = Except.ok v := by
  obtain ⟨last, loc, ⟨m, ht⟩ | ⟨xs, el, i, ht, hf⟩⟩ := Set_ok_cases hset
  · simp only [StableWrite, ht] at hst
    rw [Set_obj ht]
    exact Lookup_obj (traverse_putAt_stable _ ht hst) (mapGet_mapSet_self _ _ _)
  · simp only [StableWrite, ht] at hst
    rw [Set_arr ht hf]
    exact Lookup_arr (traverse_putAt ht _ (similar_arr _ _)) (findByKey_set v hf hst)

/-- C1 (witness): writing the `name` of the element of id 2. -/
theorem Lookup_Set_roundtrip_witness :
    Lookup (Set itemsDoc "items/2/name" (Node.str "c")).2 "items/2/name" =
      Except.ok (Node.str "c") :=
  Lookup_Set_roundtrip itemsDoc "items/2/name" (Node.str "c") rfl (Or.inr rfl)

/-- C2 (claim as stated fails): on `{"items":[{"id":1,..},{"id":2,..}]}` the
write `Set items/1 := "x"` succeeds; applied again it overwrites the element
at position 1, so the document differs from the one after the first
application. -/
theorem Set_idempotent_fails :
    (Set itemsDoc "items/1" (Node.str "x")).1 = none ∧
      (Set (Set itemsDoc "items/1" (Node.str "x")).2 "items/1" (Node.str "x")).2 =
        Node.obj [("items", Node.arr [Node.str "x", Node.str "x"])] ∧
      (Set (Set itemsDoc "items/1" (Node.str "x")).2 "items/1" (Node.str "x")).2 ≠
        (Set itemsDoc "items/1" (Node.str "x")).2 := by
  refine ⟨rfl, rfl, ?_⟩
  intro h
  have h2 : Node.obj [("items", Node.arr [Node.str "x", Node.str "x"])] =
      Node.obj [("items", Node.arr [Node.str "x",
        Node.obj [("id", int 2), ("name", Node.str "b")]])] := h
  simp at h2

/-- C2 (amended): for every document, path and value such that `Set`
succeeds and the write does not change an identity the path is resolved by
(`StableWrite`), a second `Set` with the same path and value succeeds and
leaves the document as it was after the first. -/
theorem Set_idempotent (d : Node) (p : String) (v : Node)
    (hset : (Set d p v).1 = none) (hst : StableWrite d p v) :
    Set (Set d p v).2 p v = (none, (Set d p v).2) := by
  obtain ⟨last, loc, ⟨m, ht⟩ | ⟨xs, el, i, ht, hf⟩⟩ := Set_ok_cases hset
  · simp only [StableWrite, ht] at hst
    rw [Set_obj ht, Set_obj (traverse_putAt_stable _ ht hst), mapSet_mapSet_self, putAt_putAt]
  · simp only [StableWrite, ht] at hst
    rw [Set_arr ht hf,
      Set_arr (traverse_putAt ht _ (similar_arr _ _)) (findByKey_set v hf hst),
      List.set_set, putAt_putAt]

/-- C2 (witness): replacing the element at position 0 of a slice without
ids, twice. -/
theorem Set_idempotent_witness :
    Set (Set (Node.obj [("tags", Node.arr [Node.str "a", Node.str "b"])]) "tags/0"
        (Node.str "z")).2 "tags/0" (Node.str "z") =
      (none, (Set (Node.obj [("tags", Node.arr [Node.str "a", Node.str "b"])]) "tags/0"
        (Node.str "z")).2) :=
  Set_idempotent (Node.obj [("tags", Node.arr [Node.str "a", Node.str "b"])]) "tags/0"
    (Node.str "z") rfl (Or.inl rfl)

end datatree

/-! ## C3: the Element Locator -/

namespace datatree

theorem idMatches_iff (el : Node) (key : String) : IdMatches el key ↔ idKey el = some key := by
  constructor
  · rintro ⟨m, rfl, h | ⟨f, h, hf⟩⟩
    · simp [idKey, h, idText]
    · simp [idKey, h, idText, hf]
  · intro h
    cases el with
    | obj m =>
      refine ⟨m, rfl, ?_⟩
      simp only [idKey] at h
      cases hc : mapGet "id" m with
      | none => simp [hc] at h
      | some raw =>
        simp only [hc, Option.bind] at h
        cases raw with
        | str s =>
          simp only [idText, Option.some.injEq] at h
          subst h
          exact Or.inl rfl
        | num f =>
          simp only [idText, Option.some.injEq] at h
          exact Or.inr ⟨f, rfl, h⟩
        | null => simp [idText] at h
        | bool b => simp [idText] at h
        | arr xs => simp [idText] at h
        | obj m' => simp [idText] at h
    | null => simp [idKey] at h
    | bool b => simp [idKey] at h
    | num x => simp [idKey] at h
    | str s => simp [idKey] at h
    | arr xs => simp [idKey] at h

theorem idIndex_eq_none_iff (key : String) : ∀ (xs : List Node) (s : Nat),
    idIndex key xs s = none ↔ ∀ e ∈ xs, idKey e ≠ some key := by
  intro xs
  induction xs with
  | nil => intro s; simp [idIndex]
  | cons el rest ih =>
    intro s
    by_cases hk : idKey el = some key
    · simp [idIndex, hk]
    · simp [idIndex, hk, ih (s + 1)]

theorem idIndex_first (key : String) : ∀ (xs : List Node) (s i : Nat) (el : Node),
    xs[i]? = some el → idKey el = some key →
      (∀ j e, j < i → xs[j]? = some e → idKey e ≠ some key) →
        idIndex key xs s = some (s + i) := by
  intro xs
  induction xs with
  | nil => intro s i el h; simp at h
  | cons x rest ih =>
    intro s i el h hk hbefore
    cases i with
    | zero =>
      simp only [List.getElem?_cons_zero, Option.some.injEq] at h
      subst h
      simp [idIndex, hk]
    | succ i =>
      have hx : idKey x ≠ some key := hbefore 0 x (Nat.succ_pos i) (by simp)
      simp only [List.getElem?_cons_succ] at h
      simp only [idIndex, hx, if_false]
      rw [ih (s + 1) i el h hk (fun j e hj he => hbefore (j + 1) e (by omega) (by simpa using he))]
      congr 1
      omega

/-- C3 (claim as stated fails): the key is compared after its surrounding
white space is removed.  In `[{"id":" 3"}]` the only element is an object
whose `id` is a string exactly equal to the key `" 3"`, and `findByKey`
does not return it (the trimmed key `3` is no identity and no valid
position). -/
theorem findByKey_exact_key_fails :
    IdMatches (Node.obj [("id", Node.str " 3")]) " 3" ∧
      findByKey [Node.obj [("id", Node.str " 3")]] " 3" = Except.error (Err.noElement "3") :=
  ⟨⟨_, rfl, Or.inl rfl⟩, rfl⟩

/-- C3 (amended): with `k` the key stripped of leading and trailing white
space, `findByKey` returns the first element in slice order that is an
object whose `id` is the string `k` or a number whose integer part (the Go
conversion `int`) prints as `k`, together with its index, whatever position
`k` may spell; if no element matches by identity and `k` parses as an
integer `0 ≤ idx < len`, it returns the element at position `idx`;
otherwise it fails.  An element of numeric id `3.0` or `3.7` is located by
key `3`; an element of string id `3` is located by key `3` and not by key
`3.0`. -/
theorem findByKey_spec (slice : List Node) (key : String) :
    (∀ (i : Nat) (el : Node), slice[i]? = some el → IdMatches el (TrimSpace key) →
        (∀ j e, j < i → slice[j]? = some e → ¬ IdMatches e (TrimSpace key)) →
        findByKey slice key = Except.ok (el, i)) ∧
    ((∀ e ∈ slice, ¬ IdMatches e (TrimSpace key)) →
        ∀ idx : Int, Atoi (TrimSpace key) = some idx → 0 ≤ idx → idx < slice.length →
        ∃ el, slice[idx.toNat]? = some el ∧ findByKey slice key = Except.ok (el, idx.toNat)) ∧
    ((∀ e ∈ slice, ¬ IdMatches e (TrimSpace key)) →
        (∀ idx : Int, Atoi (TrimSpace key) = some idx → idx < 0 ∨ (slice.length : Int) ≤ idx) →
        findByKey slice key = Except.error (Err.noElement (TrimSpace key))) ∧
    (findByKey [Node.obj [("id", Node.num ⟨3, 0⟩)]] "3" =
        Except.ok (Node.obj [("id", Node.num ⟨3, 0⟩)], 0) ∧
      findByKey [Node.str "x", Node.obj [("id", Node.num ⟨4165829655317709, -50⟩)]] "3" =
        Except.ok (Node.obj [("id", Node.num ⟨4165829655317709, -50⟩)], 1) ∧
      findByKey [Node.obj [("id", Node.str "3")]] "3" =
        Except.ok (Node.obj [("id", Node.str "3")], 0) ∧
      findByKey [Node.obj [("id", Node.str "3")]] "3.0" =
        Except.error (Err.noElement "3.0")) := by
  refine ⟨?_, ?_, ?_, ⟨rfl, rfl, rfl, rfl⟩⟩
  · intro i el hi hm hbefore
    rw [findByKey_ok_iff]
    refine ⟨?_, hi⟩
    have := idIndex_first (TrimSpace key) slice 0 i el hi ((idMatches_iff _ _).1 hm)
      (fun j e hj he h => hbefore j e hj he ((idMatches_iff _ _).2 h))
    simp only [Nat.zero_add] at this
    simp [locateIndex, this]
  · intro hno idx ha h0 hlt
    have hnone : idIndex (TrimSpace key) slice 0 = none :=
      (idIndex_eq_none_iff _ _ _).2 (fun e he h => hno e he ((idMatches_iff _ _).2 h))
    have hloc : locateIndex slice (TrimSpace key) = some idx.toNat := by
      simp [locateIndex, hnone, ha, h0, hlt]
    have hl := locateIndex_lt hloc
    exact ⟨slice[idx.toNat], List.getElem?_eq_getElem hl,
      (findByKey_ok_iff _ _ _ _).2 ⟨hloc, List.getElem?_eq_getElem hl⟩⟩
  · intro hno hbad
    have hnone : idIndex (TrimSpace key) slice 0 = none :=
      (idIndex_eq_none_iff _ _ _).2 (fun e he h => hno e he ((idMatches_iff _ _).2 h))
    have hloc : locateIndex slice (TrimSpace key) = none := by
      unfold locateIndex
      simp only [hnone]
      cases ha : Atoi (TrimSpace key) with
      | none => rfl
      | some idx =>
        have := hbad idx ha
        have hb : ¬ (0 ≤ idx ∧ idx < slice.length) := by omega
        simp [hb]
    rw [findByKey_eq, hloc]

/-- C3 (witness): in `{"items":[{"id":1,..},{"id":2,..}]}` the key `1`
names the element of id 1, at index 0, not the element at position 1. -/
theorem findByKey_spec_witness :
    findByKey [Node.obj [("id", int 1), ("name", Node.str "a")],
        Node.obj [("id", int 2), ("name", Node.str "b")]] "1" =
      Except.ok (Node.obj [("id", int 1), ("name", Node.str "a")], 0) :=
  (findByKey_spec [Node.obj [("id", int 1), ("name", Node.str "a")],
      Node.obj [("id", int 2), ("name", Node.str "b")]] "1").1 0
    (Node.obj [("id", int 1), ("name", Node.str "a")]) rfl
    ⟨_, rfl, Or.inr ⟨⟨1, 0⟩, rfl, rfl⟩⟩ (fun j _ hj _ => absurd hj (Nat.not_lt_zero j))

end datatree

/-! ## Lemmas: writing at the location of an addressed value -/

namespace datatree

theorem putAt_nil_fun (v : Node) : putAt [] v = fun _ => v := by
  funext n
  simp [putAt]

theorem descend_one_cases {g x : Node} {seg : String} {st : Step}
    (h : descend g [seg] [] = Except.ok (x, [st])) :
    (∃ m, g = Node.obj m ∧ mapGet seg m = some x ∧ st = Step.key seg) ∨
    (∃ ys j, g = Node.arr ys ∧ findByKey ys seg = Except.ok (x, j) ∧ st = Step.idx j) := by
  rcases descend_cons_ok h with ⟨m, nxt, l', rfl, hc, hd, hl⟩ | ⟨ys, el, j, l', rfl, hc, hd, hl⟩
  · rw [descend_nil] at hd
    injection hd with hd
    injection hd with h1 h2
    subst h1 h2
    injection hl with hl _
    exact Or.inl ⟨m, rfl, hc, hl⟩
  · rw [descend_nil] at hd
    injection hd with hd
    injection hd with h1 h2
    subst h1 h2
    injection hl with hl _
    exact Or.inr ⟨ys, j, rfl, hc, hl⟩

theorem descend_split {root : Node} {parts : List String} {x : Node} {loc : Loc}
    (hne : parts ≠ []) (h : descend root parts [] = Except.ok (x, loc)) :
    ∃ seg g lg st, parts.getLast? = some seg ∧
      traverse root parts = Except.ok (g, seg, lg) ∧
      descend g [seg] [] = Except.ok (x, [st]) ∧ loc = lg ++ [st] := by
  have hparts : parts = parts.dropLast ++ [parts.getLast hne] :=
    (List.dropLast_concat_getLast hne).symm
  have hlast : parts.getLast? = some (parts.getLast hne) := List.getLast?_eq_getLast _ hne
  rw [hparts] at h
  obtain ⟨g, lg, st, h1, h2, h3⟩ := descend_snoc _ _ _ _ _ _ h
  exact ⟨parts.getLast hne, g, lg, st, hlast, (traverse_ok_iff _ _ _ _ _).2 ⟨hlast, h1⟩, h2, h3⟩

/-- Writing with `Set` at a path that addresses a value overwrites that
value where it is stored. -/
theorem Set_existing {root : Node} {urlPath : String} {x : Node} {loc : Loc}
    (hne : splitPath urlPath ≠ [])
    (h : descend root (splitPath urlPath) [] = Except.ok (x, loc)) (v : Node) :
    Set root urlPath v = (none, putAt loc v root) := by
  obtain ⟨seg, g, lg, st, _, ht, h2, rfl⟩ := descend_split hne h
  have hg := traverse_getAt ht
  rw [putAt_append lg [st] v root g hg]
  rcases descend_one_cases h2 with ⟨m, rfl, hc, rfl⟩ | ⟨ys, j, rfl, hc, rfl⟩
  · rw [Set_obj ht]
    simp only [putAt, putAt_nil_fun, mapAdjust_const hc]
  · rw [Set_arr ht hc]
    simp only [putAt, putAt_nil_fun, ← List.set_eq_modify]

theorem LookupRef_ok_iff (root : Node) (urlPath : String) (r : Node × Loc) :
    LookupRef root urlPath = Except.ok r ↔
      descend root (splitPath urlPath) [] = Except.ok r := by
  by_cases hne : splitPath urlPath = []
  · simp [LookupRef, hne, descend_nil]
  · have hlen : (splitPath urlPath).length ≠ 0 := fun h => hne (List.length_eq_zero.1 h)
    obtain ⟨x, loc⟩ := r
    constructor
    · intro h
      simp only [LookupRef, hlen, if_false] at h
      cases ht : traverse root (splitPath urlPath) with
      | error e => simp [ht] at h
      | ok t =>
        obtain ⟨g, seg, lg⟩ := t
        simp only [ht] at h
        obtain ⟨hlast, hd⟩ := (traverse_ok_iff _ _ _ _ _).1 ht
        have hparts : splitPath urlPath = (splitPath urlPath).dropLast ++ [seg] :=
          (List.dropLast_append_getLast? seg hlast).symm
        rw [hparts]
        cases g with
        | obj m =>
          simp only at h
          cases hc : mapGet seg m with
          | none => simp [hc] at h
          | some res =>
            simp only [hc] at h
            injection h with h
            injection h with h1 h2
            subst h1 h2
            exact descend_append_one _ _ _ _ _ _ _ _ hd
              (descend_obj_step hc (descend_nil _ _))
        | arr ys =>
          simp only at h
          cases hc : findByKey ys seg with
          | error e => simp [hc] at h
          | ok t =>
            obtain ⟨res, j⟩ := t
            simp only [hc] at h
            injection h with h
            injection h with h1 h2
            subst h1 h2
            exact descend_append_one _ _ _ _ _ _ _ _ hd
              (descend_arr_step hc (descend_nil _ _))
        | null => simp at h
        | bool b => simp at h
        | num f => simp at h
        | str s => simp at h
    · intro h
      obtain ⟨seg, g, lg, st, _, ht, h2, rfl⟩ := descend_split hne h
      simp only [LookupRef, hlen, if_false, ht]
      rcases descend_one_cases h2 with ⟨m, rfl, hc, rfl⟩ | ⟨ys, j, rfl, hc, rfl⟩
      · simp [hc]
      · simp [hc]

theorem Lookup_ok_iff (root : Node) (urlPath : String) (x : Node) :
    Lookup root urlPath = Except.ok x ↔
      ∃ loc, descend root (splitPath urlPath) [] = Except.ok (x, loc) := by
  unfold Lookup
  constructor
  · intro h
    cases hl : LookupRef root urlPath with
    | error e => simp [hl] at h
    | ok r =>
      obtain ⟨y, loc⟩ := r
      simp only [hl] at h
      injection h with h
      subst h
      exact ⟨loc, (LookupRef_ok_iff _ _ _).1 hl⟩
  · rintro ⟨loc, h⟩
    rw [(LookupRef_ok_iff _ _ _).2 h]

end datatree

/-! ## C4: Delete of a slice element -/

namespace datatree

theorem Delete_arr {d : Node} {p : String} {xs : List Node} {last : String} {loc : Loc}
    {el : Node} {i : Nat}
    (ht : traverse d (splitPath p) = Except.ok (Node.arr xs, last, loc))
    (hf : findByKey xs last = Except.ok (el, i)) :
    Delete d p =
      Set (putAt loc (Node.arr (xs.eraseIdx i ++ xs.drop (xs.length - 1))) d)
        (Join (splitPath p).dropLast) (Node.arr (xs.eraseIdx i)) := by
  have hne := traverse_ne_nil ht
  simp [Delete, hne, ht, hf, List.eraseIdx_eq_take_drop_succ]

/-- C4 (claim as stated fails): when the slice is the document root itself,
`Delete` moves the elements down and then cannot write the shorter slice
back (`Set` has no parent to write into): it returns `ErrNotFound` and the
caller's slice `["a","b"]` still has two elements, `["b","b"]`. -/
theorem Delete_root_slice_fails :
    traverse (Node.arr [Node.str "a", Node.str "b"]) (splitPath "0") =
        Except.ok (Node.arr [Node.str "a", Node.str "b"], "0", []) ∧
      findByKey [Node.str "a", Node.str "b"] "0" = Except.ok (Node.str "a", 0) ∧
      Delete (Node.arr [Node.str "a", Node.str "b"]) "0" =
        (some Err.ErrNotFound, Node.arr [Node.str "b", Node.str "b"]) :=
  ⟨rfl, rfl, rfl⟩

/-- C4 (amended): for every document and path whose parent container
resolves to a slice `xs` that is not the document root itself (so whenever
the root is an object, or the path has two segments or more) and whose last
segment the Element Locator resolves to index `i`, `Delete` succeeds, the
document afterwards is the old one with `xs.eraseIdx i` (the elements of
`xs` except the one at `i`, in their order) at the location of the slice,
and that slice is one element shorter. -/
theorem Delete_slice_element (d : Node) (p : String) (xs : List Node) (last : String)
    (loc : Loc) (el : Node) (i : Nat)
    (hroot : (∃ m, d = Node.obj m) ∨ 2 ≤ (splitPath p).length)
    (ht : traverse d (splitPath p) = Except.ok (Node.arr xs, last, loc))
    (hf : findByKey xs last = Except.ok (el, i)) :
    Delete d p = (none, putAt loc (Node.arr (xs.eraseIdx i)) d) ∧
      getAt loc (Delete d p).2 = some (Node.arr (xs.eraseIdx i)) ∧
      (xs.eraseIdx i).length + 1 = xs.length := by
  obtain ⟨_, hd⟩ := (traverse_ok_iff _ _ _ _ _).1 ht
  have hinit : (splitPath p).dropLast ≠ [] := by
    intro h0
    rw [h0, descend_nil] at hd
    injection hd with hd
    injection hd with h1 h2
    rcases hroot with ⟨m, rfl⟩ | h2'
    · cases h1
    · have := congrArg List.length h0
      simp only [List.length_dropLast, List.length_nil] at this
      omega
  have hd1 := (descend_putAt _ _ _ _ _ hd
    (Node.arr (xs.eraseIdx i ++ xs.drop (xs.length - 1))) (similar_arr _ _)).1
  have hsplit := splitPath_Join_dropLast p
  have hD : Delete d p = (none, putAt loc (Node.arr (xs.eraseIdx i)) d) := by
    rw [Delete_arr ht hf, Set_existing (by rw [hsplit]; exact hinit) (by rw [hsplit]; exact hd1),
      putAt_putAt]
  have hi : i < xs.length := locateIndex_lt ((findByKey_ok_iff _ _ _ _).1 hf).1
  refine ⟨hD, ?_, ?_⟩
  · rw [hD]
    exact getAt_putAt _ _ _ _ (descend_getAt _ _ _ _ _ hd)
  · rw [List.length_eraseIdx, if_pos hi]
    omega

/-- C4 (witness): `Delete items/1` on `{"items":[{"id":1,..},{"id":2,..}]}`
leaves `items == [{"id":2,"name":"b"}]`. -/
theorem Delete_slice_element_witness :
    Delete itemsDoc "items/1" =
      (none, Node.obj [("items", Node.arr [Node.obj [("id", int 2), ("name", Node.str "b")]])]) :=
  (Delete_slice_element itemsDoc "items/1"
    [Node.obj [("id", int 1), ("name", Node.str "a")],
      Node.obj [("id", int 2), ("name", Node.str "b")]] "1" [Step.key "items"]
    (Node.obj [("id", int 1), ("name", Node.str "a")]) 0 (Or.inl ⟨_, rfl⟩) rfl rfl).1

/-! ## C5: BulkDelete -/

theorem retains_eq (fmtFloat : F64 → String) (filters : List (String × String)) (e : Node) :
    retains fmtFloat filters e = !matchesFilters fmtFloat e filters := by
  have key : ∀ (q r : String × String → Bool), (∀ f, r f = !q f) →
      ∀ fs : List (String × String), fs.any r = !fs.all q := by
    intro q r hqr fs
    induction fs with
    | nil => rfl
    | cons f fs ih => simp [List.any_cons, List.all_cons, hqr, ih, Bool.not_and]
  cases e with
  | obj m =>
    apply key
    intro f
    cases hc : mapGet f.1 m <;> simp [hc]
  | null => exact key _ _ (fun f => by simp [Bool.not_and]) filters
  | bool b => exact key _ _ (fun f => by simp [Bool.not_and]) filters
  | num x => exact key _ _ (fun f => by simp [Bool.not_and]) filters
  | str s => exact key _ _ (fun f => by simp [Bool.not_and]) filters
  | arr xs => exact key _ _ (fun f => by simp [Bool.not_and]) filters

/-- C5 (claim as stated fails): an element that is not an object has no
keys, so the key of every filter is absent from it and the claim keeps it;
`BulkDelete` with the filter `value=a` removes the element `"a"` from
`{"tags":["a","b"]}`. -/
theorem BulkDelete_retention_fails :
    Lookup (Node.obj [("tags", Node.arr [Node.str "a", Node.str "b"])]) "tags" =
        Except.ok (Node.arr [Node.str "a", Node.str "b"]) ∧
      (¬ ∃ m v, Node.str "a" = Node.obj m ∧ mapGet "value" m = some v) ∧
      BulkDelete fmtInt (Node.obj [("tags", Node.arr [Node.str "a", Node.str "b"])]) "tags"
          [("value", "a")] =
        (none, Node.obj [("tags", Node.arr [Node.str "b"])]) := by
  refine ⟨rfl, ?_, rfl⟩
  rintro ⟨m, v, h, _⟩
  cases h

/-- C5 (amended): for every document, every non-root path addressing a
slice `xs` and every non-empty filter map, `BulkDelete` succeeds and
afterwards the slice at that path consists, in original order, of exactly
the elements of `xs` that `retains` keeps: an object for which some filter
key is absent or the text of its value differs from the filter; an element
that is not an object unless every filter is named `value` and carries the
text of the element. -/
theorem BulkDelete_retention (fmtFloat : F64 → String) (d : Node) (p : String)
    (filters : List (String × String)) (xs : List Node)
    (hF : filters ≠ []) (hp : splitPath p ≠ [])
    (hl : Lookup d p = Except.ok (Node.arr xs)) :
    (BulkDelete fmtFloat d p filters).1 = none ∧
      Lookup (BulkDelete fmtFloat d p filters).2 p =
        Except.ok (Node.arr (xs.filter (retains fmtFloat filters))) := by
  obtain ⟨loc, hd⟩ := (Lookup_ok_iff _ _ _).1 hl
  have hlen : filters.length ≠ 0 := fun h => hF (List.length_eq_zero.1 h)
  have hfun : (fun elem => !matchesFilters fmtFloat elem filters) = retains fmtFloat filters := by
    funext e
    rw [retains_eq]
  have hB : BulkDelete fmtFloat d p filters =
      (none, putAt loc (Node.arr (xs.filter (retains fmtFloat filters))) d) := by
    simp only [BulkDelete, hlen, if_false, hl, hfun]
    exact Set_existing hp hd _
  rw [hB]
  exact ⟨rfl, (Lookup_ok_iff _ _ _).2
    ⟨loc, (descend_putAt _ _ _ _ _ hd _ (similar_arr _ _)).1⟩⟩

/-- C5 (witness): `BulkDelete items` with the filter `name=b` on
`{"items":[{"id":1,"name":"a"},{"id":2,"name":"b"}]}` keeps the element of
id 1. -/
theorem BulkDelete_retention_witness :
    Lookup (BulkDelete fmtInt itemsDoc "items" [("name", "b")]).2 "items" =
      Except.ok (Node.arr [Node.obj [("id", int 1), ("name", Node.str "a")]]) :=
  (BulkDelete_retention fmtInt itemsDoc "items" [("name", "b")]
    [Node.obj [("id", int 1), ("name", Node.str "a")],
      Node.obj [("id", int 2), ("name", Node.str "b")]]
    (by simp) (by decide) rfl).2

end datatree

/-! ## C8: Patch -/

namespace datatree

theorem Patch_existing {d : Node} {p : String} {o : List (String × Node)} {loc : Loc}
    (hp : splitPath p ≠ []) (h : descend d (splitPath p) [] = Except.ok (Node.obj o, loc))
    (f : List (String × Node)) :
    Patch d p f = (none, putAt loc (Node.obj (mapsCopy o f)) d) := by
  obtain ⟨seg, g, lg, st, _, ht, h2, rfl⟩ := descend_split hp h
  rcases descend_one_cases h2 with ⟨m, rfl, hc, rfl⟩ | ⟨ys, j, rfl, hc, rfl⟩
  · simp [Patch, ht, hc]
  · simp [Patch, ht, findElem, hc]

theorem Patch_non_object {d : Node} {p : String} {x : Node} {loc : Loc}
    (h : descend d (splitPath p) [] = Except.ok (x, loc)) (hx : ∀ o, x ≠ Node.obj o)
    (f : List (String × Node)) :
    (Patch d p f).1 ≠ none ∧ (Patch d p f).2 = d := by
  by_cases hp : splitPath p = []
  · simp [Patch, hp, traverse]
  · obtain ⟨seg, g, lg, st, _, ht, h2, rfl⟩ := descend_split hp h
    rcases descend_one_cases h2 with ⟨m, rfl, hc, rfl⟩ | ⟨ys, j, rfl, hc, rfl⟩
    · cases x with
      | obj o => exact absurd rfl (hx o)
      | null => simp [Patch, ht, hc]
      | bool b => simp [Patch, ht, hc]
      | num n => simp [Patch, ht, hc]
      | str s => simp [Patch, ht, hc]
      | arr xs => simp [Patch, ht, hc]
    · cases x with
      | obj o => exact absurd rfl (hx o)
      | null => simp [Patch, ht, findElem, hc]
      | bool b => simp [Patch, ht, findElem, hc]
      | num n => simp [Patch, ht, findElem, hc]
      | str s => simp [Patch, ht, findElem, hc]
      | arr xs => simp [Patch, ht, findElem, hc]

/-- C8 (claim as stated fails): the root path addresses the whole document,
an object, and `Patch` at the root path fails with `ErrNotFound`, leaving the
document as it was. -/
theorem Patch_root_fails :
    Lookup itemsDoc "/" = Except.ok itemsDoc ∧
      Patch itemsDoc "/" [("name", Node.str "c")] = (some Err.ErrNotFound, itemsDoc) :=
  ⟨rfl, rfl⟩

/-- C8 (amended): for every document, every non-root path and every fields
map `f` (a map: its keys are distinct): if the path addresses an object `o`,
`Patch` succeeds and the object at that location afterwards binds every key
`k` of `f` to `f[k]` (the new value as a whole, whatever the old one was),
every other key to what `o` bound it to, and no further key; if the path
addresses a value that is not an object, `Patch` fails and the document is
unchanged. -/
theorem Patch_shallow_merge (d : Node) (p : String) (f : List (String × Node))
    (hp : splitPath p ≠ []) (hnd : (f.map Prod.fst).Nodup) :
    (∀ o loc, LookupRef d p = Except.ok (Node.obj o, loc) →
        (Patch d p f).1 = none ∧
        ∃ o', getAt loc (Patch d p f).2 = some (Node.obj o') ∧
          ∀ k, mapGet k o' =
            match mapGet k f with
            | some v => some v
            | none => mapGet k o) ∧
    (∀ x, Lookup d p = Except.ok x → (∀ o, x ≠ Node.obj o) →
        (Patch d p f).1 ≠ none ∧ (Patch d p f).2 = d) := by
  constructor
  · intro o loc h
    have hd := (LookupRef_ok_iff _ _ _).1 h
    rw [Patch_existing hp hd]
    exact ⟨rfl, mapsCopy o f, getAt_putAt _ _ _ _ (descend_getAt _ _ _ _ _ hd),
      fun k => mapGet_mapsCopy k f o hnd⟩
  · intro x h hx
    obtain ⟨loc, hd⟩ := (Lookup_ok_iff _ _ _).1 h
    exact Patch_non_object hd hx f

/-- C8 (witness): `Patch items/2` with `{"name":"c"}` turns the element of
id 2 into `{"id":2,"name":"c"}`; the value under `name` is replaced. -/
theorem Patch_shallow_merge_witness :
    (Patch itemsDoc "items/2" [("name", Node.str "c")]).1 = none ∧
      ∃ o', getAt [Step.key "items", Step.idx 1]
          (Patch itemsDoc "items/2" [("name", Node.str "c")]).2 = some (Node.obj o') ∧
        ∀ k, mapGet k o' =
          match mapGet k [("name", Node.str "c")] with
          | some v => some v
          | none => mapGet k [("id", int 2), ("name", Node.str "b")] :=
  (Patch_shallow_merge itemsDoc "items/2" [("name", Node.str "c")] (by decide)
    (by simp)).1 [("id", int 2), ("name", Node.str "b")] [Step.key "items", Step.idx 1] rfl

/-! ## C9: Set under a slice -/

/-- C9: for every document and path whose parent container is a slice `xs`:
if the last segment resolves (by id or by index) to index `i`, `Set`
succeeds and the slice at that location afterwards has the length of `xs`,
holds the new value at index `i` and the elements of `xs` at every other
index; if the last segment resolves to no element, `Set` fails with the
locator's error and the document is unchanged. -/
theorem Set_slice_in_place (d : Node) (p : String) (v : Node) (xs : List Node)
    (last : String) (loc : Loc)
    (ht : traverse d (splitPath p) = Except.ok (Node.arr xs, last, loc)) :
    (∀ el i, findByKey xs last = Except.ok (el, i) →
        (Set d p v).1 = none ∧
        ∃ ys, getAt loc (Set d p v).2 = some (Node.arr ys) ∧ ys.length = xs.length ∧
          ys[i]? = some v ∧ ∀ j, j ≠ i → ys[j]? = xs[j]?) ∧
    (∀ e, findByKey xs last = Except.error e →
        (Set d p v).1 = some e ∧ (Set d p v).2 = d) := by
  constructor
  · intro el i hf
    have hi : i < xs.length := locateIndex_lt ((findByKey_ok_iff _ _ _ _).1 hf).1
    rw [Set_arr ht hf]
    refine ⟨rfl, xs.set i v, getAt_putAt _ _ _ _ (traverse_getAt ht), List.length_set _ _ _,
      List.getElem?_set_self hi, ?_⟩
    intro j hj
    rw [List.getElem?_set]
    simp [Ne.symm hj]
  · intro e hf
    rw [Set_arr_error ht hf]
    exact ⟨rfl, rfl⟩

/-- C9 (witness): `Set items/2` on `{"items":[{"id":1,..},{"id":2,..}]}`
replaces the element at index 1; `items` keeps its two elements. -/
theorem Set_slice_in_place_witness :
    (Set itemsDoc "items/2" (Node.str "z")).1 = none ∧
      ∃ ys, getAt [Step.key "items"] (Set itemsDoc "items/2" (Node.str "z")).2 =
          some (Node.arr ys) ∧
        ys.length = [Node.obj [("id", int 1), ("name", Node.str "a")],
          Node.obj [("id", int 2), ("name", Node.str "b")]].length ∧
        ys[1]? = some (Node.str "z") ∧
        ∀ j, j ≠ 1 → ys[j]? = [Node.obj [("id", int 1), ("name", Node.str "a")],
          Node.obj [("id", int 2), ("name", Node.str "b")]][j]? :=
  (Set_slice_in_place itemsDoc "items/2" (Node.str "z")
    [Node.obj [("id", int 1), ("name", Node.str "a")],
      Node.obj [("id", int 2), ("name", Node.str "b")]] "2" [Step.key "items"] rfl).1
    (Node.obj [("id", int 2), ("name", Node.str "b")]) 1 rfl

/-! ## C10: Delete under an object -/

/-- C10: for every document and path whose parent container resolves to an
object `m`, `Delete` succeeds; in the object at that location afterwards,
the last segment is bound to the empty slice if `m` bound it to a slice and
is not bound otherwise, and every other key is bound as in `m`. -/
theorem Delete_object_parent (d : Node) (p : String) (m : List (String × Node))
    (last : String) (loc : Loc)
    (ht : traverse d (splitPath p) = Except.ok (Node.obj m, last, loc)) :
    (Delete d p).1 = none ∧
      ∃ m', getAt loc (Delete d p).2 = some (Node.obj m') ∧
        ((∃ ys, mapGet last m = some (Node.arr ys)) → mapGet last m' = some (Node.arr [])) ∧
        ((¬ ∃ ys, mapGet last m = some (Node.arr ys)) → mapGet last m' = none) ∧
        ∀ k, k ≠ last → mapGet k m' = mapGet k m := by
  have hne := traverse_ne_nil ht
  have hg := traverse_getAt ht
  by_cases hs : ∃ ys, mapGet last m = some (Node.arr ys)
  · obtain ⟨ys, hys⟩ := hs
    have hD : Delete d p =
        (none, putAt loc (Node.obj (mapSet last (Node.arr []) m)) d) := by
      simp [Delete, hne, ht, hys]
    rw [hD]
    exact ⟨rfl, _, getAt_putAt _ _ _ _ hg, fun _ => mapGet_mapSet_self _ _ _,
      fun h => absurd ⟨ys, hys⟩ h, fun k hk => mapGet_mapSet_ne hk _ _⟩
  · have hD : Delete d p = (none, putAt loc (Node.obj (mapDelete last m)) d) := by
      simp only [Delete, hne, if_false, ht]
      cases hc : mapGet last m with
      | none => rfl
      | some c =>
        cases c with
        | arr ys => exact absurd ⟨ys, hc⟩ hs
        | _ => rfl
    rw [hD]
    refine ⟨rfl, _, getAt_putAt _ _ _ _ hg, fun h => absurd h hs, fun _ => ?_, fun k hk => ?_⟩
    · simp [mapGet_mapDelete]
    · simp [mapGet_mapDelete, hk]

/-- C10 (witness): `Delete items` on `{"items":[..]}` keeps the key with an
empty slice. -/
theorem Delete_object_parent_witness :
    (Delete itemsDoc "items").1 = none ∧
      ∃ m', getAt [] (Delete itemsDoc "items").2 = some (Node.obj m') ∧
        ((∃ ys, mapGet "items" [("items", Node.arr [
            Node.obj [("id", int 1), ("name", Node.str "a")],
            Node.obj [("id", int 2), ("name", Node.str "b")]])] = some (Node.arr ys)) →
          mapGet "items" m' = some (Node.arr [])) ∧
        ((¬ ∃ ys, mapGet "items" [("items", Node.arr [
            Node.obj [("id", int 1), ("name", Node.str "a")],
            Node.obj [("id", int 2), ("name", Node.str "b")]])] = some (Node.arr ys)) →
          mapGet "items" m' = none) ∧
        ∀ k, k ≠ "items" → mapGet k m' = mapGet k [("items", Node.arr [
            Node.obj [("id", int 1), ("name", Node.str "a")],
            Node.obj [("id", int 2), ("name", Node.str "b")]])] :=
  Delete_object_parent itemsDoc "items" _ "items" [] rfl

end datatree

/-! ## C6, C7: the transport -/

namespace router

open datatree

/-- C6 (the code at the failing input): appending `{"id":3,"name":"d"}` to
`items` of `{"items":[{"id":1,..},{"id":2,..}]}` stores the new element at
index 2 and reports the location `/items/2`; `Lookup` at that location
returns the element of id 2, not the new element. -/
theorem handlePostRequest_location_names_other_element :
    handlePostRequest itemsDoc "/items" (Node.obj [("id", int 3), ("name", Node.str "d")]) =
        (some "/items/2", Node.obj [("items", Node.arr [
          Node.obj [("id", int 1), ("name", Node.str "a")],
          Node.obj [("id", int 2), ("name", Node.str "b")],
          Node.obj [("id", int 3), ("name", Node.str "d")]])]) ∧
      Lookup (handlePostRequest itemsDoc "/items"
          (Node.obj [("id", int 3), ("name", Node.str "d")])).2 "/items/2" =
        Except.ok (Node.obj [("id", int 2), ("name", Node.str "b")]) :=
  ⟨rfl, rfl⟩

/-- C7 (the code at the failing input): a query with a sort key and no
filter sorts the slice it is handed; after the call the caller's slice
`[{"name":"b"},{"name":"a"}]` is `[{"name":"a"},{"name":"b"}]`. -/
theorem pipeline_sorts_the_stored_slice (fmtFloat : F64 → String)
    (parseFloat : String → Option F64) :
    pipeline fmtFloat parseFloat
        [Node.obj [("name", Node.str "b")], Node.obj [("name", Node.str "a")]]
        { Filters := [], SortKey := "name", Desc := false, Offset := 0, Limit := 0 } =
      (some [Node.obj [("name", Node.str "a")], Node.obj [("name", Node.str "b")]],
        [Node.obj [("name", Node.str "a")], Node.obj [("name", Node.str "b")]]) :=
  rfl

end router

/-! ## C11, C19: pagination -/

namespace router

open datatree

theorem wrap64_of_range {x : Int} (h1 : -(2 ^ 63) ≤ x) (h2 : x < 2 ^ 63) : wrap64 x = x := by
  unfold wrap64
  rw [Int.emod_eq_of_lt (by omega) (by omega)]
  omega

/-- Without overflow of `offset + limit`, `paginateArray` returns the window
the contract describes: from the offset (a negative one counts as 0), at
most `limit` elements when `limit > 0`, all of them otherwise. -/
theorem paginateArray_window (arr : List Node) (offset limit : Int)
    (hsum : 0 < limit → max offset 0 + limit < 2 ^ 63) :
    paginateArray arr offset limit =
      some ((arr.drop (max offset 0).toNat).take
        (if 0 < limit then limit.toNat else arr.length)) := by
  unfold paginateArray
  by_cases h0 : 0 ≤ offset ∧ (arr.length : Int) ≤ offset
  · have hdrop : arr.drop (max offset 0).toNat = [] := by
      apply List.drop_eq_nil_of_le
      have : max offset 0 = offset := max_eq_left h0.1
      rw [this]
      omega
    simp [h0, hdrop]
  · simp only [h0, if_false]
    have ho : (if offset < 0 then (0 : Int) else offset) = max offset 0 := by
      by_cases h : offset < 0
      · simp [h, max_eq_right (le_of_lt h)]
      · simp [h, max_eq_left (not_lt.1 h)]
    rw [ho]
    have hlt : max offset 0 ≤ arr.length := by
      rcases le_total offset 0 with h | h
      · rw [max_eq_right h]; omega
      · rw [max_eq_left h]
        by_contra hc
        exact h0 ⟨h, by omega⟩
    have hnn : (0 : Int) ≤ max offset 0 := le_max_right _ _
    by_cases hl : 0 < limit
    · have hw : wrap64 (max offset 0 + limit) = max offset 0 + limit :=
        wrap64_of_range (by omega) (hsum hl)
      rw [hw]
      by_cases hs : max offset 0 + limit < arr.length
      · have hle : max offset 0 ≤ max offset 0 + limit := by omega
        simp only [hl, hs, and_self, if_true, hle]
        congr 2
        omega
      · have hle : max offset 0 ≤ (arr.length : Int) := hlt
        simp only [hl, hs, and_false, if_false, if_true, hle]
        congr 1
        rw [List.take_of_length_le, List.take_of_length_le]
        · simp only [List.length_drop]; omega
        · simp only [List.length_drop]; omega
    · have hle : max offset 0 ≤ (arr.length : Int) := hlt
      simp only [hl, false_and, if_false, hle, if_true]
      congr 1
      rw [List.take_of_length_le, List.take_of_length_le]
      · simp only [List.length_drop]; omega
      · simp only [List.length_drop]; omega

/-- C11 (the code at the failing input): on a slice of two elements with
offset 1 and limit `2 ^ 63 - 1` the sum `offset + limit` wraps to a negative
`end`, and the slice expression panics, where the contract gives the one
element at position 1; with limit 5 the call returns that element. -/
theorem paginateArray_panics_on_overflow :
    paginateArray [Node.str "a", Node.str "b"] 1 (2 ^ 63 - 1) = none ∧
      paginateArray [Node.str "a", Node.str "b"] 1 5 = some [Node.str "b"] :=
  ⟨rfl, rfl⟩

theorem paginateArray_eq_bounds (arr : List Node) (offset limit : Int) :
    paginateArray arr offset limit =
      match paginateBounds arr.length offset limit with
      | none => some []
      | some b =>
        if b.1 ≤ b.2 then some ((arr.drop b.1.toNat).take (b.2 - b.1).toNat) else none := by
  unfold paginateArray paginateBounds
  by_cases h0 : 0 ≤ offset ∧ (arr.length : Int) ≤ offset
  · simp [h0]
  · simp only [h0, if_false]

/-- C19 (the code at the failing input): for a slice of length 2, offset 1
and limit `2 ^ 63 - 1`, `paginateArray` slices with the bounds `1` and
`-2 ^ 63`: the end lies below the offset (and below 0). -/
theorem paginateBounds_out_of_order :
    paginateBounds 2 1 (2 ^ 63 - 1) = some (1, -(2 ^ 63)) ∧
      ¬ ((0 : Int) ≤ 1 ∧ (1 : Int) ≤ -(2 ^ 63) ∧ -(2 ^ 63) ≤ (2 : Int)) := by
  constructor
  · decide
  · omega

end router

/-! ## C14: the offset of a query -/

namespace router

open datatree

/-- C14 (the code at the failing input): the query `page=2&limit=10` gives
offset 10 when `limit` is visited before `page` and offset 0 when `page` is
visited first (its limit is still 0 then); with `offset=5` visited before
`page` the page wins and the offset is 10, not 5. -/
theorem parseQuery_offset_depends_on_order :
    (parseQuery [("limit", ["10"]), ("page", ["2"])]).map (fun o => o.Offset) = some 10 ∧
      (parseQuery [("page", ["2"]), ("limit", ["10"])]).map (fun o => o.Offset) = some 0 ∧
      (parseQuery [("limit", ["10"]), ("offset", ["5"]), ("page", ["2"])]).map
        (fun o => o.Offset) = some 10 ∧
      (parseQuery [("limit", ["10"]), ("page", ["2"]), ("offset", ["5"])]).map
        (fun o => o.Offset) = some 5 := by
  refine ⟨?_, ?_, ?_, ?_⟩ <;> decide

end router

/-! ## C17: the error of a missing key -/

namespace router

open datatree

/-- C17 (the code at the failing input): on `{"items":[..]}` the path
`nope/x`, whose first segment is a key the root lacks, makes `Lookup` fail
with the `path not found` error of `traverse`, which is not `ErrNotFound`
and which the transport answers with 500; the path `nope`, where the same
key is the last segment, fails with `ErrNotFound`, answered with 404. -/
theorem Lookup_missing_intermediate_key_is_internal_error :
    Lookup itemsDoc "nope/x" = Except.error (Err.pathNotFound "nope") ∧
      handleStoreError (Err.pathNotFound "nope") = 500 ∧
      Lookup itemsDoc "nope" = Except.error Err.ErrNotFound ∧
      handleStoreError Err.ErrNotFound = 404 :=
  ⟨rfl, by decide, rfl, by decide⟩

end router

/-! ## C13: the query filter -/

namespace router

open datatree

/-- C13 (claim as stated fails): with the filters `value=a` and `name=x` the
item `"a"`, which is not an object, does not match the filter `name` (it
can match only a filter named `value`), so it does not match all filters;
`filterArray` keeps it. -/
theorem filterArray_ignores_other_filters :
    filterHit fmtInt (fun _ => none) (Node.str "a") ("name", "x") = false ∧
      filterArray fmtInt (fun _ => none) [Node.str "a", Node.str "b"]
        [("value", "a"), ("name", "x")] = [Node.str "a"] :=
  ⟨rfl, rfl⟩

/-- C13 (amended): for every slice and filter map, `filterArray` returns, in
original order, exactly the objects that match every filter (the object has
the field, and its value, when a number, equals the number the filter
parses to, and otherwise has the filter as its text) and the items that are
not objects whose text is the filter named `value`, whatever other filters
there are; an item that is not an object is dropped when no filter is named
`value`. -/
theorem filterArray_spec (fmtFloat : F64 → String) (parseFloat : String → Option F64)
    (arr : List Node) (filters : List (String × String)) :
    filterArray fmtFloat parseFloat arr filters =
      arr.filter (fun item =>
        match item with
        | Node.obj _ => filters.all (filterHit fmtFloat parseFloat item)
        | _ => decide (filters.lookup "value" = some (Sprint fmtFloat item))) := by
  unfold filterArray
  congr 1
  funext item
  have hval : ∀ x : Node,
      (match filters.lookup "value" with
        | some want => decide (Sprint fmtFloat x = want)
        | none => false) = decide (filters.lookup "value" = some (Sprint fmtFloat x)) := by
    intro x
    cases filters.lookup "value" with
    | none => simp
    | some want => simp [eq_comm]
  cases item with
  | obj m =>
    simp only [filterMatch]
    congr 1
  | null => simpa [filterMatch] using hval Node.null
  | bool b => simpa [filterMatch] using hval (Node.bool b)
  | num x => simpa [filterMatch] using hval (Node.num x)
  | str s => simpa [filterMatch] using hval (Node.str s)
  | arr xs => simpa [filterMatch] using hval (Node.arr xs)

end router

/-! ## C15: the comparison of the sort -/

namespace router

open datatree

/-- C15 (claim as stated fails): ascending, an object whose field is the
number 1 is reported before an object whose field is the string `x`, though
the two values have incompatible types. -/
theorem sortLess_number_before_string :
    sortLess "k" false (Node.obj [("k", int 1)]) (Node.obj [("k", Node.str "x")]) = true ∧
      sortLess "k" true (Node.obj [("k", Node.str "x")]) (Node.obj [("k", int 1)]) = true :=
  ⟨rfl, rfl⟩

/-- C15 (amended): for every pair of elements `a` and `b`, sort field and
direction: if either element is not an object or lacks the field, the
comparison reports neither before the other; if the value of `a` is neither
a number nor a string, `a` is not reported before `b`; if the value of `a`
is a number and that of `b` is not, `a` is reported before `b` exactly when
ascending; if the value of `a` is a string and that of `b` is not, `a` is
reported before `b` exactly when descending. -/
theorem sortLess_incomparable (key : String) (desc : Bool) (a b : Node) :
    (fieldOf key a = none ∨ fieldOf key b = none →
        sortLess key desc a b = false ∧ sortLess key desc b a = false) ∧
    ((∀ m, a ≠ Node.obj m) ∨ (∀ m, b ≠ Node.obj m) →
        fieldOf key a = none ∨ fieldOf key b = none) ∧
    (∀ x y, fieldOf key a = some x → fieldOf key b = some y →
        (∀ f, x ≠ Node.num f) → (∀ s, x ≠ Node.str s) → sortLess key desc a b = false) ∧
    (∀ f y, fieldOf key a = some (Node.num f) → fieldOf key b = some y →
        (∀ g, y ≠ Node.num g) → sortLess key desc a b = !desc) ∧
    (∀ s y, fieldOf key a = some (Node.str s) → fieldOf key b = some y →
        (∀ t, y ≠ Node.str t) → sortLess key desc a b = desc) := by
  have hnone : ∀ a b : Node, fieldOf key a = none ∨ fieldOf key b = none →
      sortLess key desc a b = false := by
    intro a b h
    cases a with
    | obj ma =>
      cases b with
      | obj mb =>
        simp only [fieldOf] at h
        rcases h with h | h
        · simp [sortLess, h]
        · simp only [sortLess, h]
          cases mapGet key ma <;> rfl
      | _ => rfl
    | _ => rfl
  have hsome : ∀ x y, fieldOf key a = some x → fieldOf key b = some y →
      ∃ ma mb, a = Node.obj ma ∧ b = Node.obj mb ∧ mapGet key ma = some x ∧
        mapGet key mb = some y := by
    intro x y hx hy
    cases a with
    | obj ma =>
      cases b with
      | obj mb => exact ⟨ma, mb, rfl, rfl, hx, hy⟩
      | _ => simp [fieldOf] at hy
    | _ => simp [fieldOf] at hx
  refine ⟨fun h => ⟨hnone a b h, hnone b a h.symm⟩, ?_, ?_, ?_, ?_⟩
  · rintro (h | h)
    · left
      cases a with
      | obj m => exact absurd rfl (h m)
      | _ => rfl
    · right
      cases b with
      | obj m => exact absurd rfl (h m)
      | _ => rfl
  · intro x y hx hy hnum hstr
    obtain ⟨ma, mb, rfl, rfl, hxa, hyb⟩ := hsome x y hx hy
    cases x with
    | num f => exact absurd rfl (hnum f)
    | str s => exact absurd rfl (hstr s)
    | _ => simp [sortLess, hxa, hyb]
  · intro f y hx hy hnum
    obtain ⟨ma, mb, rfl, rfl, hxa, hyb⟩ := hsome _ y hx hy
    cases y with
    | num g => exact absurd rfl (hnum g)
    | _ => simp [sortLess, hxa, hyb]
  · intro s y hx hy hstr
    obtain ⟨ma, mb, rfl, rfl, hxa, hyb⟩ := hsome _ y hx hy
    cases y with
    | str t => exact absurd rfl (hstr t)
    | _ => simp [sortLess, hxa, hyb]

/-- C15 (witness): an object is never reported before or after a string
element. -/
theorem sortLess_incomparable_witness :
    sortLess "k" false (Node.obj [("k", int 1)]) (Node.str "x") = false ∧
      sortLess "k" false (Node.str "x") (Node.obj [("k", int 1)]) = false :=
  (sortLess_incomparable "k" false (Node.obj [("k", int 1)]) (Node.str "x")).1 (Or.inr rfl)

end router

/-! ## C16: the filters of a delete request -/

namespace datatree

theorem lookup_filterSet_self (k v : String) (m : List (String × String)) :
    (filterSet k v m).lookup k = some v := by
  induction m with
  | nil => simp [filterSet, List.lookup]
  | cons e m ih =>
    obtain ⟨a, b⟩ := e
    by_cases h : a = k
    · subst h
      simp [filterSet, List.lookup]
    · have h2 : (k == a) = false := by simpa using fun h3 => h h3.symm
      simp [filterSet, h, List.lookup, h2, ih]

theorem lookup_filterSet_ne {k k' : String} (h : k' ≠ k) (v : String)
    (m : List (String × String)) : (filterSet k v m).lookup k' = m.lookup k' := by
  induction m with
  | nil =>
    have h2 : (k' == k) = false := by simpa using h
    simp [filterSet, List.lookup, h2]
  | cons e m ih =>
    obtain ⟨a, b⟩ := e
    by_cases h1 : a = k
    · subst h1
      have h2 : (k' == a) = false := by simpa using h
      simp [filterSet, List.lookup, h2]
    · simp only [filterSet, h1, if_false, List.lookup]
      cases k' == a <;> simp [ih]

theorem lookup_eq_none_of_not_mem {k : String} {q : List (String × List String)}
    (h : k ∉ q.map Prod.fst) : q.lookup k = none := by
  induction q with
  | nil => rfl
  | cons e q ih =>
    obtain ⟨a, b⟩ := e
    simp only [List.map_cons, List.mem_cons, not_or] at h
    have h2 : (k == a) = false := by simpa using h.1
    simp [List.lookup, h2, ih h.2]

theorem lookup_foldl_flatten (k : String) (q : List (String × List String)) :
    ∀ out : List (String × String), (q.map Prod.fst).Nodup →
      (q.foldl (fun out kv =>
          match kv.2 with
          | [] => out
          | v :: _ => filterSet kv.1 v out) out).lookup k =
        match (q.lookup k).bind List.head? with
        | some v => some v
        | none => out.lookup k := by
  induction q with
  | nil => intro out _; simp [List.lookup]
  | cons e q ih =>
    intro out hnd
    obtain ⟨a, vs⟩ := e
    simp only [List.map_cons, List.nodup_cons] at hnd
    simp only [List.foldl_cons]
    rw [ih _ hnd.2]
    by_cases h : k = a
    · subst h
      have h2 : (k == k) = true := by simp
      simp only [List.lookup, h2, lookup_eq_none_of_not_mem hnd.1, Option.bind]
      cases vs with
      | nil => simp
      | cons v rest => simp [lookup_filterSet_self]
    · have h2 : (k == a) = false := by simpa using h
      simp only [List.lookup, h2]
      cases vs with
      | nil => rfl
      | cons v rest => simp only [lookup_filterSet_ne h]

end datatree

namespace app

open datatree

/-- C16 (claim as stated fails): the request `DELETE /items?limit=1` has no
parameter besides a pagination key, so the claim has the store perform a
plain `Delete` of `items`, which empties the slice; the store passes the
filter `limit=1` to `BulkDelete`, which removes no element. -/
theorem Delete_takes_pagination_key_as_filter :
    FlattenFilters [("limit", ["1"])] = [("limit", "1")] ∧
      app.Delete fmtInt itemsDoc "items" [("limit", ["1"])] = (none, itemsDoc) ∧
      datatree.Delete itemsDoc "items" = (none, Node.obj [("items", Node.arr [])]) :=
  ⟨rfl, rfl, rfl⟩

/-- C16 (amended): for every delete request's query parameters (a map:
distinct keys), the store calls `BulkDelete` with the filters
`FlattenFilters q`, which bind exactly the parameters that have a value,
whatever their key and also when that value is empty, each to its first
value; when no parameter has a value (so when there are no parameters) the
store performs a plain `Delete` of the addressed path. -/
theorem Delete_filter_selection (fmtFloat : F64 → String) (data : Node) (path : String)
    (q : List (String × List String)) (hq : (q.map Prod.fst).Nodup) :
    app.Delete fmtFloat data path q = BulkDelete fmtFloat data path (FlattenFilters q) ∧
      (∀ k, (FlattenFilters q).lookup k = (q.lookup k).bind List.head?) ∧
      (FlattenFilters q = [] → app.Delete fmtFloat data path q = datatree.Delete data path) := by
  have hB : app.Delete fmtFloat data path q =
      BulkDelete fmtFloat data path (FlattenFilters q) := by
    unfold app.Delete
    by_cases h : 0 < q.length
    · simp [h]
    · have hq0 : q = [] := List.length_eq_zero.1 (by omega)
      subst hq0
      simp [FlattenFilters, BulkDelete]
  refine ⟨hB, ?_, ?_⟩
  · intro k
    have := lookup_foldl_flatten k q [] hq
    unfold FlattenFilters
    rw [this]
    cases (q.lookup k).bind List.head? <;> simp [List.lookup]
  · intro h
    rw [hB, h]
    simp [BulkDelete]

/-- C16 (witness): `DELETE /items?name=b&sort=` passes the filters `name=b`
and `sort=`. -/
theorem Delete_filter_selection_witness :
    app.Delete fmtInt itemsDoc "items" [("name", ["b"]), ("sort", [""])] =
      BulkDelete fmtInt itemsDoc "items" (FlattenFilters [("name", ["b"]), ("sort", [""])]) :=
  (Delete_filter_selection fmtInt itemsDoc "items" [("name", ["b"]), ("sort", [""])]
    (by decide)).1

end app

/-! ## C20: errors leave the document as it was -/

namespace datatree

theorem Set_error_unchanged (d : Node) (p : String) (v : Node)
    (h : (Set d p v).1 ≠ none) : (Set d p v).2 = d := by
  cases ht : traverse d (splitPath p) with
  | error e => simp [Set, ht]
  | ok r =>
    obtain ⟨parent, last, loc⟩ := r
    cases parent with
    | obj m => rw [Set_obj ht] at h; exact absurd rfl h
    | arr xs =>
      cases hf : findByKey xs last with
      | error e => rw [Set_arr_error ht hf]
      | ok r =>
        obtain ⟨el, i⟩ := r
        rw [Set_arr ht hf] at h
        exact absurd rfl h
    | null => simp [Set, ht]
    | bool b => simp [Set, ht]
    | num x => simp [Set, ht]
    | str s => simp [Set, ht]

theorem Patch_error_unchanged (d : Node) (p : String) (f : List (String × Node))
    (h : (Patch d p f).1 ≠ none) : (Patch d p f).2 = d := by
  cases ht : traverse d (splitPath p) with
  | error e => simp [Patch, ht]
  | ok r =>
    obtain ⟨parent, last, loc⟩ := r
    cases parent with
    | obj m =>
      cases hc : mapGet last m with
      | none => simp [Patch, ht, hc]
      | some data =>
        cases data with
        | obj o => simp [Patch, ht, hc] at h
        | null => simp [Patch, ht, hc]
        | bool b => simp [Patch, ht, hc]
        | num x => simp [Patch, ht, hc]
        | str s => simp [Patch, ht, hc]
        | arr xs => simp [Patch, ht, hc]
    | arr xs =>
      cases hf : findElem xs last with
      | error e => simp [Patch, ht, hf]
      | ok r =>
        obtain ⟨o, i⟩ := r
        simp [Patch, ht, hf] at h
    | null => simp [Patch, ht]
    | bool b => simp [Patch, ht]
    | num x => simp [Patch, ht]
    | str s => simp [Patch, ht]

/-- Under an object root, `Delete` of a slice element ends with a `Set` that
succeeds. -/
theorem Delete_arr_ok {d : Node} {p : String} {xs : List Node} {last : String} {loc : Loc}
    {el : Node} {i : Nat} (hroot : ∃ m, d = Node.obj m)
    (ht : traverse d (splitPath p) = Except.ok (Node.arr xs, last, loc))
    (hf : findByKey xs last = Except.ok (el, i)) :
    Delete d p = (none, putAt loc (Node.arr (xs.eraseIdx i)) d) := by
  obtain ⟨_, hd⟩ := (traverse_ok_iff _ _ _ _ _).1 ht
  have hinit : (splitPath p).dropLast ≠ [] := by
    intro h0
    rw [h0, descend_nil] at hd
    injection hd with hd
    injection hd with h1 h2
    obtain ⟨m, rfl⟩ := hroot
    cases h1
  have hd1 := (descend_putAt _ _ _ _ _ hd
    (Node.arr (xs.eraseIdx i ++ xs.drop (xs.length - 1))) (similar_arr _ _)).1
  have hsplit := splitPath_Join_dropLast p
  rw [Delete_arr ht hf, Set_existing (by rw [hsplit]; exact hinit) (by rw [hsplit]; exact hd1),
    putAt_putAt]

theorem Delete_error_unchanged (d : Node) (p : String) (hroot : ∃ m, d = Node.obj m)
    (h : (Delete d p).1 ≠ none) : (Delete d p).2 = d := by
  by_cases hne : (splitPath p).length = 0
  · simp [Delete, hne]
  · cases ht : traverse d (splitPath p) with
    | error e => simp [Delete, hne, ht]
    | ok r =>
      obtain ⟨parent, last, loc⟩ := r
      cases parent with
      | obj m =>
        exfalso
        apply h
        simp only [Delete, hne, if_false, ht]
        cases hc : mapGet last m with
        | none => rfl
        | some c => cases c <;> rfl
      | arr xs =>
        cases hf : findByKey xs last with
        | error e => simp [Delete, hne, ht, hf]
        | ok r =>
          obtain ⟨el, i⟩ := r
          rw [Delete_arr_ok hroot ht hf] at h
          exact absurd rfl h
      | null => simp [Delete, hne, ht]
      | bool b => simp [Delete, hne, ht]
      | num x => simp [Delete, hne, ht]
      | str s => simp [Delete, hne, ht]

theorem BulkDelete_error_unchanged (fmtFloat : F64 → String) (d : Node) (p : String)
    (filters : List (String × String)) (hroot : ∃ m, d = Node.obj m)
    (h : (BulkDelete fmtFloat d p filters).1 ≠ none) :
    (BulkDelete fmtFloat d p filters).2 = d := by
  by_cases hF : filters.length = 0
  · simp only [BulkDelete, hF, if_true] at h ⊢
    exact Delete_error_unchanged d p hroot h
  · cases hl : Lookup d p with
    | error e => simp [BulkDelete, hF, hl]
    | ok raw =>
      cases raw with
      | arr xs =>
        simp only [BulkDelete, hF, if_false, hl] at h ⊢
        exact Set_error_unchanged d p _ h
      | null => simp [BulkDelete, hF, hl]
      | bool b => simp [BulkDelete, hF, hl]
      | num x => simp [BulkDelete, hF, hl]
      | str s => simp [BulkDelete, hF, hl]
      | obj m => simp [BulkDelete, hF, hl]

/-- C20: for every document whose root is an object, every path and every
argument, whenever `Set`, `Patch`, `Delete` or `BulkDelete` returns an error
the document after the call is the document before it; `Delete` of a slice
element does not fail once the locator has resolved the element. -/
theorem mutations_atomic_on_error (fmtFloat : F64 → String) (d : Node) (p : String)
    (v : Node) (f : List (String × Node)) (filters : List (String × String))
    (hroot : ∃ m, d = Node.obj m) :
    ((Set d p v).1 ≠ none → (Set d p v).2 = d) ∧
    ((Patch d p f).1 ≠ none → (Patch d p f).2 = d) ∧
    ((Delete d p).1 ≠ none → (Delete d p).2 = d) ∧
    ((BulkDelete fmtFloat d p filters).1 ≠ none → (BulkDelete fmtFloat d p filters).2 = d) ∧
    (∀ xs last loc el i, traverse d (splitPath p) = Except.ok (Node.arr xs, last, loc) →
        findByKey xs last = Except.ok (el, i) → (Delete d p).1 = none) :=
  ⟨Set_error_unchanged d p v, Patch_error_unchanged d p f,
    Delete_error_unchanged d p hroot, BulkDelete_error_unchanged fmtFloat d p filters hroot,
    fun _ _ _ _ _ ht hf => by rw [Delete_arr_ok hroot ht hf]⟩

/-- C20 (witness): `Delete items/9` on `{"items":[{"id":1,..},{"id":2,..}]}`
fails (no element of id 9, no position 9) and leaves the document as it
was. -/
theorem mutations_atomic_on_error_witness :
    (Delete itemsDoc "items/9").1 = some (Err.noElement "9") ∧
      (Delete itemsDoc "items/9").2 = itemsDoc :=
  ⟨rfl, (mutations_atomic_on_error fmtInt itemsDoc "items/9" Node.null [] []
    ⟨_, rfl⟩).2.2.1 (by decide)⟩

end datatree

/-! ## Lemmas: the order of numbers and of strings -/

namespace router

open datatree

theorem f64Value_scaled (a : F64) (e : Int) (h : e ≤ a.exp) :
    f64Value a = ((a.mant * 2 ^ (a.exp - e).toNat : Int) : ℚ) * (2 : ℚ) ^ e := by
  have hd : ((a.exp - e).toNat : Int) = a.exp - e := Int.toNat_of_nonneg (by omega)
  have hexp : a.exp = ((a.exp - e).toNat : Int) + e := by omega
  unfold f64Value
  conv_lhs => rw [hexp]
  rw [zpow_add₀ (by norm_num : (2 : ℚ) ≠ 0), zpow_natCast]
  push_cast
  ring

theorem f64Lt_iff (a b : F64) : f64Lt a b = true ↔ f64Value a < f64Value b := by
  have hpos : (0 : ℚ) < (2 : ℚ) ^ (min a.exp b.exp) := zpow_pos (by norm_num) _
  rw [f64Value_scaled a (min a.exp b.exp) (min_le_left _ _),
    f64Value_scaled b (min a.exp b.exp) (min_le_right _ _),
    mul_lt_mul_right hpos, Int.cast_lt]
  simp [f64Lt]

theorem f64Eq_iff (a b : F64) : f64Eq a b = true ↔ f64Value a = f64Value b := by
  have hpos : (0 : ℚ) < (2 : ℚ) ^ (min a.exp b.exp) := zpow_pos (by norm_num) _
  rw [f64Value_scaled a (min a.exp b.exp) (min_le_left _ _),
    f64Value_scaled b (min a.exp b.exp) (min_le_right _ _),
    mul_left_inj' (ne_of_gt hpos), Int.cast_inj]
  simp [f64Eq]

theorem f64Lt_eq_false_iff (a b : F64) : f64Lt a b = false ↔ f64Value b ≤ f64Value a := by
  rw [← not_lt, ← f64Lt_iff]
  simp

theorem strLess_irrefl (a : List Char) : strLess a a = false := by
  induction a with
  | nil => rfl
  | cons c cs ih => simp [strLess, ih]

theorem strLess_asymm : ∀ (a b : List Char), strLess a b = true → strLess b a = false := by
  intro a
  induction a with
  | nil =>
    intro b _
    cases b <;> rfl
  | cons c cs ih =>
    intro b h
    cases b with
    | nil => simp [strLess] at h
    | cons d ds =>
      simp only [strLess] at h ⊢
      by_cases h1 : c.toNat < d.toNat
      · have h2 : ¬ d.toNat < c.toNat := by omega
        simp [h1, h2]
      · by_cases h2 : d.toNat < c.toNat
        · simp [h1, h2] at h
        · simp only [h1, h2, if_false] at h ⊢
          exact ih ds h

theorem strLess_negtrans : ∀ (a b c : List Char),
    strLess a b = false → strLess b c = false → strLess a c = false := by
  intro a
  induction a with
  | nil =>
    intro b c hab hbc
    cases b with
    | nil => exact hbc
    | cons d ds => simp [strLess] at hab
  | cons x xs ih =>
    intro b c hab hbc
    cases c with
    | nil => rfl
    | cons z zs =>
      cases b with
      | nil => simp [strLess] at hbc
      | cons y ys =>
        simp only [strLess] at hab hbc ⊢
        by_cases h1 : x.toNat < y.toNat
        · simp [h1] at hab
        · by_cases h2 : y.toNat < x.toNat
          · by_cases h3 : y.toNat < z.toNat
            · simp [h3] at hbc
            · have h4 : ¬ x.toNat < z.toNat := by omega
              have h5 : z.toNat < x.toNat := by omega
              simp [h4, h5]
          · simp only [h1, h2, if_false] at hab
            by_cases h3 : y.toNat < z.toNat
            · simp [h3] at hbc
            · by_cases h4 : z.toNat < y.toNat
              · have h5 : ¬ x.toNat < z.toNat := by omega
                have h6 : z.toNat < x.toNat := by omega
                simp [h5, h6]
              · simp only [h3, h4, if_false] at hbc
                have h5 : ¬ x.toNat < z.toNat := by omega
                have h6 : ¬ z.toNat < x.toNat := by omega
                simp only [h5, h6, if_false]
                exact ih ys zs hab hbc

/-! ## Lemmas: the stable insertion sort -/

theorem mem_sink (less : Node → Node → Bool) (x y : Node) :
    ∀ R : List Node, y ∈ sink less x R ↔ y = x ∨ y ∈ R := by
  intro R
  induction R with
  | nil => simp [sink]
  | cons p ps ih =>
    by_cases h : less x p = true
    · simp only [sink, h, if_true, List.mem_cons, ih]
      tauto
    · simp [sink, h]

theorem sink_perm (less : Node → Node → Bool) (x : Node) :
    ∀ R : List Node, (sink less x R).Perm (x :: R) := by
  intro R
  induction R with
  | nil => simp [sink]
  | cons p ps ih =>
    by_cases h : less x p = true
    · simp only [sink, h, if_true]
      exact (List.Perm.cons p ih).trans (List.Perm.swap x p ps)
    · simp [sink, h]

theorem foldl_sink_perm (less : Node → Node → Bool) : ∀ (l R : List Node),
    (l.foldl (fun sorted x => sink less x sorted) R).Perm (l ++ R) := by
  intro l
  induction l with
  | nil => intro R; simp
  | cons x xs ih =>
    intro R
    simp only [List.foldl_cons, List.cons_append]
    refine (ih (sink less x R)).trans ?_
    refine (List.Perm.append_left xs (sink_perm less x R)).trans ?_
    exact List.perm_middle

theorem sink_pairwise (less : Node → Node → Bool) (G : Node → Prop)
    (hasym : ∀ a b, G a → G b → less a b = true → less b a = false)
    (hneg : ∀ a b c, G a → G b → G c → less a b = false → less b c = false →
      less a c = false) (x : Node) (hx : G x) :
    ∀ R : List Node, (∀ y ∈ R, G y) → R.Pairwise (fun a b => less a b = false) →
      (sink less x R).Pairwise (fun a b => less a b = false) := by
  intro R
  induction R with
  | nil => intro _ _; simp [sink]
  | cons p ps ih =>
    intro hG hs
    have hp : G p := hG p (by simp)
    have hps : ∀ y ∈ ps, G y := fun y hy => hG y (by simp [hy])
    rw [List.pairwise_cons] at hs
    by_cases h : less x p = true
    · simp only [sink, h, if_true, List.pairwise_cons]
      refine ⟨?_, ih hps hs.2⟩
      intro y hy
      rcases (mem_sink less x y ps).1 hy with rfl | hy
      · exact hasym _ _ hx hp h
      · exact hs.1 y hy
    · have h' : less x p = false := by simpa using h
      simp only [sink, h', Bool.false_eq_true, if_false, List.pairwise_cons]
      refine ⟨?_, hs.1, hs.2⟩
      intro y hy
      rcases List.mem_cons.1 hy with rfl | hy
      · exact h'
      · exact hneg _ _ _ hx hp (hps y hy) h' (hs.1 y hy)

theorem foldl_sink_pairwise (less : Node → Node → Bool) (G : Node → Prop)
    (hasym : ∀ a b, G a → G b → less a b = true → less b a = false)
    (hneg : ∀ a b c, G a → G b → G c → less a b = false → less b c = false →
      less a c = false) :
    ∀ (l R : List Node), (∀ y ∈ l, G y) → (∀ y ∈ R, G y) →
      R.Pairwise (fun a b => less a b = false) →
      (l.foldl (fun sorted x => sink less x sorted) R).Pairwise
        (fun a b => less a b = false) := by
  intro l
  induction l with
  | nil => intro R _ _ hs; simpa using hs
  | cons x xs ih =>
    intro R hl hR hs
    simp only [List.foldl_cons]
    apply ih
    · exact fun y hy => hl y (by simp [hy])
    · intro y hy
      rcases (mem_sink less x y R).1 hy with rfl | hy
      · exact hl _ (by simp)
      · exact hR y hy
    · exact sink_pairwise less G hasym hneg x (hl x (by simp)) R hR hs

theorem sink_filter (less : Node → Node → Bool) (P : Node → Bool)
    (hP : ∀ a b, P a = true → P b = true → less a b = false) (x : Node) :
    ∀ R : List Node,
      (sink less x R).filter P = (if P x = true then [x] else []) ++ R.filter P := by
  intro R
  induction R with
  | nil => by_cases hx : P x = true <;> simp [sink, hx]
  | cons p ps ih =>
    by_cases h : less x p = true
    · simp only [sink, h, if_true]
      by_cases hp : P p = true
      · have hx : ¬ P x = true := by
          intro hx
          rw [hP x p hx hp] at h
          exact Bool.noConfusion h
        simp [List.filter_cons, hp, hx, ih]
      · simp [List.filter_cons, hp, ih]
    · by_cases hx : P x = true <;> simp [sink, h, List.filter_cons, hx]

theorem foldl_sink_filter (less : Node → Node → Bool) (P : Node → Bool)
    (hP : ∀ a b, P a = true → P b = true → less a b = false) :
    ∀ (l R : List Node),
      (l.foldl (fun sorted x => sink less x sorted) R).filter P =
        (l.filter P).reverse ++ R.filter P := by
  intro l
  induction l with
  | nil => intro R; simp
  | cons x xs ih =>
    intro R
    simp only [List.foldl_cons]
    rw [ih, sink_filter less P hP]
    by_cases hx : P x = true <;> simp [List.filter_cons, hx]

theorem sliceStable_perm (less : Node → Node → Bool) (l : List Node) :
    (sliceStable less l).Perm l := by
  unfold sliceStable
  refine (List.reverse_perm _).trans ?_
  simpa using foldl_sink_perm less l []

theorem sliceStable_sorted (less : Node → Node → Bool) (G : Node → Prop)
    (hasym : ∀ a b, G a → G b → less a b = true → less b a = false)
    (hneg : ∀ a b c, G a → G b → G c → less a b = false → less b c = false →
      less a c = false) (l : List Node) (hl : ∀ y ∈ l, G y) :
    (sliceStable less l).Pairwise (fun a b => less b a = false) := by
  unfold sliceStable
  rw [List.pairwise_reverse]
  exact foldl_sink_pairwise less G hasym hneg l [] hl (by simp) List.Pairwise.nil

theorem sliceStable_filter (less : Node → Node → Bool) (P : Node → Bool)
    (hP : ∀ a b, P a = true → P b = true → less a b = false) (l : List Node) :
    (sliceStable less l).filter P = l.filter P := by
  unfold sliceStable
  rw [List.filter_reverse, foldl_sink_filter less P hP]
  simp

end router

/-! ## C12: the sort on homogeneous data -/

namespace router

open datatree

theorem sortLess_of_fields {key : String} {a b : Node} {x y : Node}
    (ha : fieldOf key a = some x) (hb : fieldOf key b = some y) (desc : Bool) :
    sortLess key desc a b =
      match x with
      | Node.num av =>
        match y with
        | Node.num bv => if desc then f64Lt bv av else f64Lt av bv
        | _ => !desc
      | Node.str av =>
        match y with
        | Node.str bv => if desc then stringLt bv av else stringLt av bv
        | _ => desc
      | _ => false := by
  cases a with
  | obj ma =>
    cases b with
    | obj mb =>
      simp only [fieldOf] at ha hb
      simp only [sortLess, ha, hb]
      cases x <;> cases y <;> rfl
    | _ => simp [fieldOf] at hb
  | _ => simp [fieldOf] at ha

theorem sortLess_num {key : String} {a b : Node} {x y : F64}
    (ha : fieldOf key a = some (Node.num x)) (hb : fieldOf key b = some (Node.num y))
    (desc : Bool) : sortLess key desc a b = if desc then f64Lt y x else f64Lt x y := by
  rw [sortLess_of_fields ha hb]

theorem sortLess_str {key : String} {a b : Node} {x y : String}
    (ha : fieldOf key a = some (Node.str x)) (hb : fieldOf key b = some (Node.str y))
    (desc : Bool) : sortLess key desc a b = if desc then stringLt y x else stringLt x y := by
  rw [sortLess_of_fields ha hb]

theorem sortLess_asymm_num (key : String) (desc : Bool) (a b : Node)
    (ha : ∃ v, fieldOf key a = some (Node.num v)) (hb : ∃ v, fieldOf key b = some (Node.num v))
    (h : sortLess key desc a b = true) : sortLess key desc b a = false := by
  obtain ⟨x, hx⟩ := ha
  obtain ⟨y, hy⟩ := hb
  rw [sortLess_num hx hy] at h
  rw [sortLess_num hy hx]
  cases desc with
  | true =>
    simp only [if_true] at h ⊢
    rw [f64Lt_iff] at h
    rw [f64Lt_eq_false_iff]
    exact le_of_lt h
  | false =>
    simp only [Bool.false_eq_true, if_false] at h ⊢
    rw [f64Lt_iff] at h
    rw [f64Lt_eq_false_iff]
    exact le_of_lt h

theorem sortLess_negtrans_num (key : String) (desc : Bool) (a b c : Node)
    (ha : ∃ v, fieldOf key a = some (Node.num v)) (hb : ∃ v, fieldOf key b = some (Node.num v))
    (hc : ∃ v, fieldOf key c = some (Node.num v))
    (hab : sortLess key desc a b = false) (hbc : sortLess key desc b c = false) :
    sortLess key desc a c = false := by
  obtain ⟨x, hx⟩ := ha
  obtain ⟨y, hy⟩ := hb
  obtain ⟨z, hz⟩ := hc
  rw [sortLess_num hx hy] at hab
  rw [sortLess_num hy hz] at hbc
  rw [sortLess_num hx hz]
  cases desc with
  | true =>
    simp only [if_true] at hab hbc ⊢
    rw [f64Lt_eq_false_iff] at hab hbc ⊢
    exact le_trans hab hbc
  | false =>
    simp only [Bool.false_eq_true, if_false] at hab hbc ⊢
    rw [f64Lt_eq_false_iff] at hab hbc ⊢
    exact le_trans hbc hab

theorem sortLess_asymm_str (key : String) (desc : Bool) (a b : Node)
    (ha : ∃ v, fieldOf key a = some (Node.str v)) (hb : ∃ v, fieldOf key b = some (Node.str v))
    (h : sortLess key desc a b = true) : sortLess key desc b a = false := by
  obtain ⟨x, hx⟩ := ha
  obtain ⟨y, hy⟩ := hb
  rw [sortLess_str hx hy] at h
  rw [sortLess_str hy hx]
  cases desc with
  | true =>
    simp only [if_true] at h ⊢
    exact strLess_asymm _ _ h
  | false =>
    simp only [Bool.false_eq_true, if_false] at h ⊢
    exact strLess_asymm _ _ h

theorem sortLess_negtrans_str (key : String) (desc : Bool) (a b c : Node)
    (ha : ∃ v, fieldOf key a = some (Node.str v)) (hb : ∃ v, fieldOf key b = some (Node.str v))
    (hc : ∃ v, fieldOf key c = some (Node.str v))
    (hab : sortLess key desc a b = false) (hbc : sortLess key desc b c = false) :
    sortLess key desc a c = false := by
  obtain ⟨x, hx⟩ := ha
  obtain ⟨y, hy⟩ := hb
  obtain ⟨z, hz⟩ := hc
  rw [sortLess_str hx hy] at hab
  rw [sortLess_str hy hz] at hbc
  rw [sortLess_str hx hz]
  cases desc with
  | true =>
    simp only [if_true] at hab hbc ⊢
    exact strLess_negtrans _ _ _ hbc hab
  | false =>
    simp only [Bool.false_eq_true, if_false] at hab hbc ⊢
    exact strLess_negtrans _ _ _ hab hbc

theorem sameField_cases {key : String} {v e : Node} (h : sameField key v e = true) :
    (∃ x y, fieldOf key e = some (Node.num x) ∧ v = Node.num y ∧ f64Eq x y = true) ∨
    (∃ s, fieldOf key e = some (Node.str s) ∧ v = Node.str s) := by
  unfold sameField at h
  cases hf : fieldOf key e with
  | none => simp [hf] at h
  | some x =>
    cases x with
    | num x =>
      cases v with
      | num y =>
        simp only [hf] at h
        exact Or.inl ⟨x, y, rfl, rfl, h⟩
      | _ => simp [hf] at h
    | str s =>
      cases v with
      | str t =>
        simp only [hf, decide_eq_true_eq] at h
        subst h
        exact Or.inr ⟨s, rfl, rfl⟩
      | _ => simp [hf] at h
    | _ => simp [hf] at h

theorem sortLess_sameField (key : String) (desc : Bool) (v a b : Node)
    (ha : sameField key v a = true) (hb : sameField key v b = true) :
    sortLess key desc a b = false := by
  rcases sameField_cases ha with ⟨x, y, hx, rfl, hxy⟩ | ⟨s, hs, rfl⟩
  · rcases sameField_cases hb with ⟨x', y', hx', hv, hxy'⟩ | ⟨s, _, hv⟩
    · injection hv with hv
      subst hv
      rw [sortLess_num hx hx']
      rw [f64Eq_iff] at hxy hxy'
      cases desc with
      | true =>
        simp only [if_true]
        rw [f64Lt_eq_false_iff, hxy, hxy']
      | false =>
        simp only [Bool.false_eq_true, if_false]
        rw [f64Lt_eq_false_iff, hxy, hxy']
    · cases hv
  · rcases sameField_cases hb with ⟨x', y', _, hv, _⟩ | ⟨s', hs', hv⟩
    · cases hv
    · injection hv with hv
      subst hv
      rw [sortLess_str hs hs']
      cases desc <;> simp [stringLt, strLess_irrefl]

theorem inOrder_of_not_less {key : String} {desc : Bool} {a b : Node}
    (h : (∃ x y, fieldOf key a = some (Node.num x) ∧ fieldOf key b = some (Node.num y)) ∨
      (∃ x y, fieldOf key a = some (Node.str x) ∧ fieldOf key b = some (Node.str y)))
    (hless : sortLess key desc b a = false) : InOrder key desc a b := by
  rcases h with ⟨x, y, hx, hy⟩ | ⟨x, y, hx, hy⟩
  · rw [sortLess_num hy hx] at hless
    simp only [InOrder, hx, hy]
    cases desc with
    | true =>
      simp only [if_true] at hless ⊢
      exact (f64Lt_eq_false_iff _ _).1 hless
    | false =>
      simp only [Bool.false_eq_true, if_false] at hless ⊢
      exact (f64Lt_eq_false_iff _ _).1 hless
  · rw [sortLess_str hy hx] at hless
    simp only [InOrder, hx, hy]
    cases desc with
    | true => simpa using hless
    | false => simpa using hless

/-! ### A stable sorted permutation is unique -/

theorem strLess_total : ∀ (a b : List Char),
    strLess a b = false → strLess b a = false → a = b := by
  intro a
  induction a with
  | nil =>
    intro b hab _
    cases b with
    | nil => rfl
    | cons d ds => simp [strLess] at hab
  | cons c cs ih =>
    intro b hab hba
    cases b with
    | nil => simp [strLess] at hba
    | cons d ds =>
      simp only [strLess] at hab hba
      by_cases h1 : c.toNat < d.toNat
      · simp [h1] at hab
      · by_cases h2 : d.toNat < c.toNat
        · simp [h2] at hba
        · simp only [h1, h2, if_false] at hab hba
          have hcd : c = d := by
            apply Char.ext
            apply UInt32.ext
            show c.toNat = d.toNat
            omega
          rw [hcd, ih ds hab hba]

theorem stable_sorted_unique (less : Node → Node → Bool) (G : Node → Prop)
    (cls : Node → Node → Bool) (hirr : ∀ a, G a → less a a = false)
    (hcls : ∀ a b, G a → G b → less a b = false → less b a = false →
      ∃ v, cls v a = true ∧ cls v b = true) :
    ∀ l1 l2 : List Node, l1.Perm l2 → (∀ y ∈ l1, G y) →
      l1.Pairwise (fun a b => less b a = false) →
      l2.Pairwise (fun a b => less b a = false) →
      (∀ v, l1.filter (cls v) = l2.filter (cls v)) → l1 = l2 := by
  intro l1
  induction l1 with
  | nil =>
    intro l2 hp _ _ _ _
    exact (List.Perm.nil_eq hp)
  | cons a t1 ih =>
    intro l2 hp hG h1 h2 hf
    cases l2 with
    | nil => exact absurd hp.symm (List.Perm.nil_eq · |> fun h => by cases h)
    | cons b t2 =>
      have hGa : G a := hG a (by simp)
      have hGb : G b := hG b (hp.mem_iff.2 (by simp))
      rw [List.pairwise_cons] at h1 h2
      have hab : less a b = false := by
        have ha : a ∈ b :: t2 := hp.mem_iff.1 (by simp)
        rcases List.mem_cons.1 ha with rfl | ha
        · exact hirr _ hGa
        · exact h2.1 a ha
      have hba : less b a = false := by
        have hb : b ∈ a :: t1 := hp.mem_iff.2 (by simp)
        rcases List.mem_cons.1 hb with rfl | hb
        · exact hirr _ hGb
        · exact h1.1 b hb
      obtain ⟨v, hva, hvb⟩ := hcls a b hGa hGb hab hba
      have hhead := hf v
      simp only [List.filter_cons, hva, hvb, if_true] at hhead
      injection hhead with hhead _
      subst hhead
      congr 1
      apply ih t2 hp.cons_inv (fun y hy => hG y (by simp [hy])) h1.2 h2.2
      intro w
      have hw := hf w
      by_cases hwa : cls w a = true
      · simp only [List.filter_cons, hwa, if_true] at hw
        injection hw
      · simpa [List.filter_cons, hwa] using hw

theorem not_less_of_inOrder {key : String} {desc : Bool} {a b : Node}
    (h : (∃ x y, fieldOf key a = some (Node.num x) ∧ fieldOf key b = some (Node.num y)) ∨
      (∃ x y, fieldOf key a = some (Node.str x) ∧ fieldOf key b = some (Node.str y)))
    (hord : InOrder key desc a b) : sortLess key desc b a = false := by
  rcases h with ⟨x, y, hx, hy⟩ | ⟨x, y, hx, hy⟩
  · rw [sortLess_num hy hx]
    simp only [InOrder, hx, hy] at hord
    cases desc with
    | true =>
      simp only [if_true] at hord ⊢
      exact (f64Lt_eq_false_iff _ _).2 hord
    | false =>
      simp only [Bool.false_eq_true, if_false] at hord ⊢
      exact (f64Lt_eq_false_iff _ _).2 hord
  · rw [sortLess_str hy hx]
    simp only [InOrder, hx, hy] at hord
    cases desc with
    | true => simpa using hord
    | false => simpa using hord

theorem sortLess_irrefl_hom (key : String) (desc : Bool) (a : Node)
    (ha : (∃ v, fieldOf key a = some (Node.num v)) ∨ (∃ v, fieldOf key a = some (Node.str v))) :
    sortLess key desc a a = false := by
  rcases ha with ⟨x, hx⟩ | ⟨x, hx⟩
  · rw [sortLess_num hx hx]
    cases desc <;> simp [f64Lt]
  · rw [sortLess_str hx hx]
    cases desc <;> simp [stringLt, strLess_irrefl]

theorem sameField_of_equiv_num (key : String) (desc : Bool) (a b : Node)
    (ha : ∃ v, fieldOf key a = some (Node.num v)) (hb : ∃ v, fieldOf key b = some (Node.num v))
    (hab : sortLess key desc a b = false) (hba : sortLess key desc b a = false) :
    ∃ v, sameField key v a = true ∧ sameField key v b = true := by
  obtain ⟨x, hx⟩ := ha
  obtain ⟨y, hy⟩ := hb
  rw [sortLess_num hx hy] at hab
  rw [sortLess_num hy hx] at hba
  have heq : f64Value y = f64Value x := by
    cases desc with
    | true =>
      simp only [if_true] at hab hba
      rw [f64Lt_eq_false_iff] at hab hba
      exact le_antisymm hba hab
    | false =>
      simp only [Bool.false_eq_true, if_false] at hab hba
      rw [f64Lt_eq_false_iff] at hab hba
      exact le_antisymm hab hba
  refine ⟨Node.num x, ?_, ?_⟩
  · simp only [sameField, hx]
    exact (f64Eq_iff x x).2 rfl
  · simp only [sameField, hy]
    exact (f64Eq_iff y x).2 heq

theorem sameField_of_equiv_str (key : String) (desc : Bool) (a b : Node)
    (ha : ∃ v, fieldOf key a = some (Node.str v)) (hb : ∃ v, fieldOf key b = some (Node.str v))
    (hab : sortLess key desc a b = false) (hba : sortLess key desc b a = false) :
    ∃ v, sameField key v a = true ∧ sameField key v b = true := by
  obtain ⟨x, hx⟩ := ha
  obtain ⟨y, hy⟩ := hb
  rw [sortLess_str hx hy] at hab
  rw [sortLess_str hy hx] at hba
  have heq : x.data = y.data := by
    cases desc with
    | true =>
      simp only [if_true, stringLt] at hab hba
      exact strLess_total _ _ hba hab
    | false =>
      simp only [Bool.false_eq_true, if_false, stringLt] at hab hba
      exact strLess_total _ _ hab hba
  have hxy : x = y := by
    cases x
    cases y
    simp only at heq
    rw [heq]
  subst hxy
  exact ⟨Node.str x, by simp [sameField, hx], by simp [sameField, hy]⟩

/-- C12: for every slice whose elements are all objects carrying the sort
field with a number (or all with a string), `sortArray` produces a
permutation of the slice in which every element stands before the elements
that follow it in the order of the field (numbers by value, strings
character by character; non-decreasing when ascending, non-increasing with
`desc`), and, for every value, the elements whose field has that value are
in the order they had in the slice; no other list has these three
properties, so the result does not depend on how the stable sort
proceeds. -/
theorem sortArray_stable_sort (arr : List Node) (key : String) (desc : Bool)
    (hhom : (∀ e ∈ arr, ∃ v, fieldOf key e = some (Node.num v)) ∨
      (∀ e ∈ arr, ∃ v, fieldOf key e = some (Node.str v))) :
    (sortArray arr key desc).Perm arr ∧
      (sortArray arr key desc).Pairwise (InOrder key desc) ∧
      (∀ v : Node, (sortArray arr key desc).filter (sameField key v) =
        arr.filter (sameField key v)) ∧
      (∀ l : List Node, l.Perm arr → l.Pairwise (InOrder key desc) →
        (∀ v : Node, l.filter (sameField key v) = arr.filter (sameField key v)) →
        l = sortArray arr key desc) := by
  have hperm : (sortArray arr key desc).Perm arr := sliceStable_perm _ arr
  have hstable : ∀ v : Node, (sortArray arr key desc).filter (sameField key v) =
      arr.filter (sameField key v) := fun v =>
    sliceStable_filter (sortLess key desc) (sameField key v)
      (fun a b ha hb => sortLess_sameField key desc v a b ha hb) arr
  rcases hhom with hnum | hstr
  · have hs := sliceStable_sorted (sortLess key desc)
      (fun e => ∃ v, fieldOf key e = some (Node.num v))
      (sortLess_asymm_num key desc) (sortLess_negtrans_num key desc) arr hnum
    refine ⟨hperm, ?_, hstable, ?_⟩
    · refine List.Pairwise.imp_of_mem ?_ hs
      intro a b ha hb hless
      obtain ⟨x, hx⟩ := hnum a (hperm.mem_iff.1 ha)
      obtain ⟨y, hy⟩ := hnum b (hperm.mem_iff.1 hb)
      exact inOrder_of_not_less (Or.inl ⟨x, y, hx, hy⟩) hless
    · intro l hl hord hfil
      refine stable_sorted_unique (sortLess key desc)
        (fun e => ∃ v, fieldOf key e = some (Node.num v)) (sameField key)
        (fun a ha => sortLess_irrefl_hom key desc a (Or.inl ha))
        (sameField_of_equiv_num key desc) l _ (hl.trans hperm.symm)
        (fun y hy => hnum y (hl.mem_iff.1 hy)) ?_ hs (fun v => (hfil v).trans (hstable v).symm)
      refine List.Pairwise.imp_of_mem ?_ hord
      intro a b ha hb hin
      obtain ⟨x, hx⟩ := hnum a (hl.mem_iff.1 ha)
      obtain ⟨y, hy⟩ := hnum b (hl.mem_iff.1 hb)
      exact not_less_of_inOrder (Or.inl ⟨x, y, hx, hy⟩) hin
  · have hs := sliceStable_sorted (sortLess key desc)
      (fun e => ∃ v, fieldOf key e = some (Node.str v))
      (sortLess_asymm_str key desc) (sortLess_negtrans_str key desc) arr hstr
    refine ⟨hperm, ?_, hstable, ?_⟩
    · refine List.Pairwise.imp_of_mem ?_ hs
      intro a b ha hb hless
      obtain ⟨x, hx⟩ := hstr a (hperm.mem_iff.1 ha)
      obtain ⟨y, hy⟩ := hstr b (hperm.mem_iff.1 hb)
      exact inOrder_of_not_less (Or.inr ⟨x, y, hx, hy⟩) hless
    · intro l hl hord hfil
      refine stable_sorted_unique (sortLess key desc)
        (fun e => ∃ v, fieldOf key e = some (Node.str v)) (sameField key)
        (fun a ha => sortLess_irrefl_hom key desc a (Or.inr ha))
        (sameField_of_equiv_str key desc) l _ (hl.trans hperm.symm)
        (fun y hy => hstr y (hl.mem_iff.1 hy)) ?_ hs (fun v => (hfil v).trans (hstable v).symm)
      refine List.Pairwise.imp_of_mem ?_ hord
      intro a b ha hb hin
      obtain ⟨x, hx⟩ := hstr a (hl.mem_iff.1 ha)
      obtain ⟨y, hy⟩ := hstr b (hl.mem_iff.1 hb)
      exact not_less_of_inOrder (Or.inr ⟨x, y, hx, hy⟩) hin

/-- C12 (witness): `sort=-name` on the two items of
`{"items":[{"id":1,"name":"a"},{"id":2,"name":"b"}]}`. -/
theorem sortArray_stable_sort_witness :
    (sortArray [Node.obj [("id", int 1), ("name", Node.str "a")],
        Node.obj [("id", int 2), ("name", Node.str "b")]] "name" true).Perm
      [Node.obj [("id", int 1), ("name", Node.str "a")],
        Node.obj [("id", int 2), ("name", Node.str "b")]] ∧
    (sortArray [Node.obj [("id", int 1), ("name", Node.str "a")],
        Node.obj [("id", int 2), ("name", Node.str "b")]] "name" true).Pairwise
      (InOrder "name" true) :=
  ⟨(sortArray_stable_sort _ "name" true (Or.inr (fun e he => by
      simp only [List.mem_cons, List.mem_singleton, List.not_mem_nil, or_false] at he
      rcases he with rfl | rfl
      · exact ⟨"a", rfl⟩
      · exact ⟨"b", rfl⟩))).1,
    (sortArray_stable_sort _ "name" true (Or.inr (fun e he => by
      simp only [List.mem_cons, List.mem_singleton, List.not_mem_nil, or_false] at he
      rcases he with rfl | rfl
      · exact ⟨"a", rfl⟩
      · exact ⟨"b", rfl⟩))).2.1⟩

end router

/-! ## Lemmas: the two readings of `strconv.Atoi` agree -/

namespace router

open datatree

theorem foldl_digits_ge (cs : List Char) : ∀ n : Nat,
    n ≤ cs.foldl (fun acc d => 10 * acc + (d.toNat - 48)) n := by
  induction cs with
  | nil => intro n; simp
  | cons c cs ih =>
    intro n
    simp only [List.foldl_cons]
    have := ih (10 * n + (c.toNat - 48))
    omega

theorem parseUintLoop_digits (cs : List Char) : ∀ n : Nat,
    cs.all Char.isDigit = true →
    cs.foldl (fun acc d => 10 * acc + (d.toNat - 48)) n < 2 ^ 64 →
    parseUintLoop cs n = Except.ok (cs.foldl (fun acc d => 10 * acc + (d.toNat - 48)) n) := by
  induction cs with
  | nil => intro n _ _; rfl
  | cons c cs ih =>
    intro n hall hlt
    simp only [List.all_cons, Bool.and_eq_true] at hall
    simp only [List.foldl_cons] at hlt ⊢
    have hge := foldl_digits_ge cs (10 * n + (c.toNat - 48))
    have h64 : (2 : Nat) ^ 64 = 18446744073709551616 := by norm_num
    have h1 : ¬ (2 ^ 64 / 10 + 1 ≤ n) := by
      rw [h64]
      rw [h64] at hlt
      omega
    have h2 : ¬ (2 ^ 64 - 1 < n * 10 + (c.toNat - 48)) := by
      rw [h64]
      rw [h64] at hlt
      omega
    have h3 : n * 10 + (c.toNat - 48) = 10 * n + (c.toNat - 48) := by omega
    have h2' : ¬ (2 ^ 64 - 1 < 10 * n + (c.toNat - 48)) := by rw [← h3]; exact h2
    simp only [parseUintLoop, hall.1, not_true_eq_false, if_false, h1, h2, h2', h3]
    exact ih _ hall.2 hlt

/-- Where `strconv.Atoi` succeeds, the integer it returns is the one read by
`atoiValue`. -/
theorem atoiValue_of_Atoi {s : String} {v : Int} (h : Atoi s = some v) : atoiValue s = v := by
  unfold Atoi at h
  unfold atoiValue
  dsimp only at h ⊢
  generalize (match s.data with
    | [] => []
    | c :: rest => if c = Char.ofNat 45 ∨ c = Char.ofNat 43 then rest else c :: rest) = body
    at h ⊢
  generalize decide (s.data.head? = some (Char.ofNat 45)) = neg at h ⊢
  have h63 : (2 : Int) ^ 63 = 9223372036854775808 := by norm_num
  have h64 : (2 : Nat) ^ 64 = 18446744073709551616 := by norm_num
  have h63n : (2 : Nat) ^ 63 = 9223372036854775808 := by norm_num
  by_cases hb : body = [] ∨ ¬ body.all Char.isDigit = true
  · rw [if_pos hb] at h
    cases h
  · rw [if_neg hb] at h
    simp only [not_or, not_not] at hb
    rw [if_neg hb.1]
    cases neg
    · simp only [Bool.false_eq_true, if_false] at h
      by_cases hr : -(2 : Int) ^ 63 ≤ (digitsValue body : Int) ∧ (digitsValue body : Int) < 2 ^ 63
      · rw [if_pos hr] at h
        injection h with h
        have hr2 := hr.2
        unfold digitsValue at hr2 h
        rw [h63] at hr2
        have hlt : body.foldl (fun acc d => 10 * acc + (d.toNat - 48)) 0 < 2 ^ 64 := by
          rw [h64]
          omega
        rw [parseUintLoop_digits body 0 hb.2 hlt]
        have c1 : ¬ ((2 : Nat) ^ 63 ≤
            body.foldl (fun acc d => 10 * acc + (d.toNat - 48)) 0) := by
          rw [h63n]; omega
        simp only [Bool.false_eq_true, not_false_eq_true, true_and, false_and, if_false, c1]
        exact h
      · rw [if_neg hr] at h
        cases h
    · simp only [if_true] at h
      by_cases hr : -(2 : Int) ^ 63 ≤ -(digitsValue body : Int) ∧
          -(digitsValue body : Int) < 2 ^ 63
      · rw [if_pos hr] at h
        injection h with h
        have hr1 := hr.1
        unfold digitsValue at hr1 h
        rw [h63] at hr1
        have hlt : body.foldl (fun acc d => 10 * acc + (d.toNat - 48)) 0 < 2 ^ 64 := by
          rw [h64]
          omega
        rw [parseUintLoop_digits body 0 hb.2 hlt]
        have c1 : ¬ ((2 : Nat) ^ 63 <
            body.foldl (fun acc d => 10 * acc + (d.toNat - 48)) 0) := by
          rw [h63n]; omega
        simp only [not_true_eq_false, false_and, true_and, if_false, if_true, c1]
        exact h
      · rw [if_neg hr] at h
        cases h

end router
